/-
Verification of the sitepublisher change-detection and remote-state-cache
subsystem, as a shallow embedding of the Python sources
(src/sitepublisher/remotedircontents.py, filehash.py, remotedir.py,
cache.py, sitepublisher.py).

Python value domains are embedded explicitly:
  * a remote file's stored size is an int, None, or a callable;
  * a remote file's stored hash is one of the int sentinels 1/2/3
    (__RemoteFileMissing__, __RemoteFileAssumedCorrect__,
    __RemoteFileIsDirectory__), a string (an md5 hexdigest, the unknown
    sentinel "?", or the empty string produced for directories), None,
    or a callable.
Python dicts are embedded as association lists with unique keys
(first-match lookup; update replaces the binding in place, preserving
its position, exactly as a dict assignment does).
-/
import Mathlib

namespace SitePub

/-- Python value of a remote file's (forced) size: an int or None.
`get_file_size` documents: None = missing, -1 = directory, ≥ 0 = bytes. -/
inductive SVal : Type where
  | int (n : Int)
  | nil
deriving DecidableEq, Repr

/-- Python value of a remote file's (forced) hash.  The int sentinels of
`RemoteDirContents` are `missingS` (1), `assumedCorrect` (2), `isDirS` (3);
every Python string (md5 hexdigest, the unknown sentinel "?", the empty
string) is `str`; Python None is `nil`.  Equality of `HVal`s coincides with
Python `==` on this value domain (an int sentinel never equals a string or
None, strings compare by content). -/
inductive HVal : Type where
  | missingS
  | assumedCorrect
  | isDirS
  | str (s : String)
  | nil
deriving DecidableEq, Repr

/-- The `size` slot of a `RemoteFile`: a concrete value or a callable
(the bound method `RemoteDirLive._callback_get_file_size`, which returns
an int when forced with the leaf name). -/
inductive SizeField : Type where
  | val (v : SVal)
  | cb (f : String → Int)

/-- The `hsh` slot of a `RemoteFile`: a concrete value or a callable
(the bound method `RemoteDirLive._callback_get_file_hash`). -/
inductive HashField : Type where
  | val (v : HVal)
  | cb (f : String → HVal)

/-- `RemoteFile = namedtuple('RemoteFile', ('size', 'hsh'))`. -/
structure RemoteFile : Type where
  size : SizeField
  hsh : HashField

/-- `RemoteDirContents._contents`: dict from leaf name to `RemoteFile`,
embedded as an association list. -/
abbrev RemoteDirContents : Type := List (String × RemoteFile)

/-- Python `dict.get(key, None)` on an association list (keys unique). -/
def lookupA {β : Type} : List (String × β) → String → Option β
  | [], _ => none
  | (k, v) :: rest, key => if k = key then some v else lookupA rest key

/-- Python `d[key] = value`: replace the binding in place if the key is
present (dict insertion order keeps the original position), else append. -/
def setA {β : Type} : List (String × β) → String → β → List (String × β)
  | [], key, v => [(key, v)]
  | (k, w) :: rest, key, v =>
      if k = key then (key, v) :: rest else (k, w) :: setA rest key v

/-- `RemoteDirContents.set_file(leafname, size, hsh)`. -/
def set_file (c : RemoteDirContents) (leafname : String)
    (size : SizeField) (hsh : HashField) : RemoteDirContents :=
  setA c leafname ⟨size, hsh⟩

/-- `RemoteDirContents.leaf_names()`. -/
def leaf_names (c : RemoteDirContents) : List String :=
  c.map Prod.fst

/-- `RemoteDirContents.get_file_hash(leafname)`: None for an absent leaf;
a stored callable is forced with the leaf name. -/
def get_file_hash (c : RemoteDirContents) (leafname : String) : HVal :=
  match lookupA c leafname with
  | none => HVal.nil
  | some rf =>
      match rf.hsh with
      | HashField.val v => v
      | HashField.cb f => f leafname

/-- `RemoteDirContents.get_file_size(leafname)`. -/
def get_file_size (c : RemoteDirContents) (leafname : String) : SVal :=
  match lookupA c leafname with
  | none => SVal.nil
  | some rf =>
      match rf.size with
      | SizeField.val v => v
      | SizeField.cb f => SVal.int (f leafname)

namespace Submit

/-- `Submit.MissingOrChanged = 1`. -/
def MissingOrChanged : Nat := 1

/-- `Submit.ChangedToday = 2`. -/
def ChangedToday : Nat := 2

/-- `Submit.MissingOrChangedToday = MissingOrChanged + ChangedToday`. -/
def MissingOrChangedToday : Nat := MissingOrChanged + ChangedToday

/-- `Submit.AllFiles = 0xff`. -/
def AllFiles : Nat := 0xff

end Submit

/-- Embedding of Python `getfilehash(localf)`'s result (md5 hexdigest
string or None) into the stored-hash value domain, as used by
`remotefiles.set_file(leaf, size, hsh)` after an upload and by the
comparison `remotehash != getfilehash(localf)`. -/
def optToHVal : Option String → HVal
  | none => HVal.nil
  | some s => HVal.str s

/-- `SitePublisher._should_store(remotefiles, submit, localf, leaf)`.

The local file is abstracted by the three observations the method makes of
it: `mtime` (`os.stat(localf).st_mtime`, compared against `today`, the
session's midnight cutoff, by `_modified_today`), `localSize`
(`os.path.getsize(localf)`), and `localHash` (`getfilehash(localf)`).
The two `assert` statements are modelled by returning `none`
(an `AssertionError` aborts the call); `some b` is a normal return. -/
def should_store (remotefiles : RemoteDirContents) (submit : Nat)
    (today mtime : Int) (localSize : Int) (localHash : Option String)
    (leaf : String) : Option Bool :=
  if submit &&& Submit.AllFiles = Submit.AllFiles then
    some true
  else if submit &&& Submit.ChangedToday ≠ 0 ∧ today ≤ mtime then
    some true
  else if submit &&& Submit.MissingOrChanged ≠ 0 then
    if SVal.int localSize ≠ get_file_size remotefiles leaf then
      some true
    else
      let remotehash := get_file_hash remotefiles leaf
      if remotehash = HVal.missingS then none
      else if remotehash = HVal.isDirS then none
      else if remotehash ≠ HVal.assumedCorrect ∧ remotehash ≠ optToHVal localHash then
        some true
      else
        some false
  else
    some false

/-! ## filehash.py

`getfilehash(filename)` seeds an md5 object with the UTF-8 encoded file
name, then feeds the file's bytes in chunks of `md5.digest_size * 1024 =
16384` bytes (reading until `read` returns the empty bytes object), and
returns the hexdigest; an `IOError` (file missing / unreadable) yields
None.  The external `hashlib.md5` primitive is embedded as an executable
MD5 implementation over byte lists (`Nat`s, arithmetic mod 2^32), with
the incremental update/hexdigest interface hashlib exposes. -/

def m32 (n : Nat) : Nat := n % 4294967296

def madd (a b : Nat) : Nat := m32 (a + b)

def mnot (a : Nat) : Nat := 4294967295 ^^^ a

def rotl (x n : Nat) : Nat := m32 (x <<< n) ||| (x >>> (32 - n))

structure MD5State where
  a : Nat
  b : Nat
  c : Nat
  d : Nat
deriving DecidableEq, Repr

def md5InitState : MD5State := ⟨0x67452301, 0xefcdab89, 0x98badcfe, 0x10325476⟩

/-- The 64 MD5 round constants `floor(2^32 * abs(sin(i + 1)))`. -/
def md5K : List Nat :=
  [0xd76aa478, 0xe8c7b756, 0x242070db, 0xc1bdceee,
   0xf57c0faf, 0x4787c62a, 0xa8304613, 0xfd469501,
   0x698098d8, 0x8b44f7af, 0xffff5bb1, 0x895cd7be,
   0x6b901122, 0xfd987193, 0xa679438e, 0x49b40821,
   0xf61e2562, 0xc040b340, 0x265e5a51, 0xe9b6c7aa,
   0xd62f105d, 0x02441453, 0xd8a1e681, 0xe7d3fbc8,
   0x21e1cde6, 0xc33707d6, 0xf4d50d87, 0x455a14ed,
   0xa9e3e905, 0xfcefa3f8, 0x676f02d9, 0x8d2a4c8a,
   0xfffa3942, 0x8771f681, 0x6d9d6122, 0xfde5380c,
   0xa4beea44, 0x4bdecfa9, 0xf6bb4b60, 0xbebfbc70,
   0x289b7ec6, 0xeaa127fa, 0xd4ef3085, 0x04881d05,
   0xd9d4d039, 0xe6db99e5, 0x1fa27cf8, 0xc4ac5665,
   0xf4292244, 0x432aff97, 0xab9423a7, 0xfc93a039,
   0x655b59c3, 0x8f0ccc92, 0xffeff47d, 0x85845dd1,
   0x6fa87e4f, 0xfe2ce6e0, 0xa3014314, 0x4e0811a1,
   0xf7537e82, 0xbd3af235, 0x2ad7d2bb, 0xeb86d391]

/-- The per-round left-rotation amounts. -/
def md5S : List Nat :=
  [7, 12, 17, 22, 7, 12, 17, 22, 7, 12, 17, 22, 7, 12, 17, 22,
   5, 9, 14, 20, 5, 9, 14, 20, 5, 9, 14, 20, 5, 9, 14, 20,
   4, 11, 16, 23, 4, 11, 16, 23, 4, 11, 16, 23, 4, 11, 16, 23,
   6, 10, 15, 21, 6, 10, 15, 21, 6, 10, 15, 21, 6, 10, 15, 21]

def md5F (i b c d : Nat) : Nat :=
  if i < 16 then (b &&& c) ||| (mnot b &&& d)
  else if i < 32 then (d &&& b) ||| (mnot d &&& c)
  else if i < 48 then b ^^^ c ^^^ d
  else c ^^^ (b ||| mnot d)

def md5G (i : Nat) : Nat :=
  if i < 16 then i
  else if i < 32 then (5 * i + 1) % 16
  else if i < 48 then (3 * i + 5) % 16
  else (7 * i) % 16

/-- Little-endian 32-bit word from four bytes. -/
def leWord (b0 b1 b2 b3 : Nat) : Nat :=
  b0 + 256 * b1 + 65536 * b2 + 16777216 * b3

def toWords : List Nat → List Nat
  | b0 :: b1 :: b2 :: b3 :: rest => leWord b0 b1 b2 b3 :: toWords rest
  | _ => []

def md5StepR (X : List Nat) (st : MD5State) (i : Nat) : MD5State :=
  let f := md5F i st.b st.c st.d
  let t := madd (madd (madd st.a f) (md5K.getD i 0)) (X.getD (md5G i) 0)
  ⟨st.d, madd st.b (rotl t (md5S.getD i 0)), st.b, st.c⟩

def processBlock (st : MD5State) (block : List Nat) : MD5State :=
  let X := toWords block
  let r := (List.range 64).foldl (md5StepR X) st
  ⟨madd st.a r.a, madd st.b r.b, madd st.c r.c, madd st.d r.d⟩

/-- Greedily consume full 64-byte blocks.  Structural recursion on a fuel
that the wrapper `blocksLoop` instantiates with the byte count (each step
consumes 64 ≥ 1 bytes, so the fuel suffices). -/
def blocksLoopF : Nat → MD5State → List Nat → MD5State × List Nat
  | 0, st, bytes => (st, bytes)
  | fuel + 1, st, bytes =>
      if 64 ≤ bytes.length then
        blocksLoopF fuel (processBlock st (bytes.take 64)) (bytes.drop 64)
      else
        (st, bytes)

def blocksLoop (st : MD5State) (bytes : List Nat) : MD5State × List Nat :=
  blocksLoopF bytes.length st bytes

/-- hashlib's incremental hash object: compression state, unprocessed
buffered bytes, and the total message length so far. -/
structure MD5Ctx where
  st : MD5State
  buf : List Nat
  len : Nat

/-- `md5.update(data)`. -/
def md5Update (ctx : MD5Ctx) (data : List Nat) : MD5Ctx :=
  let r := blocksLoop ctx.st (ctx.buf ++ data)
  ⟨r.1, r.2, ctx.len + data.length⟩

/-- `hashlib.md5(seed)`. -/
def md5New (seed : List Nat) : MD5Ctx :=
  md5Update ⟨md5InitState, [], 0⟩ seed

/-- `k` little-endian bytes of `n` (truncating). -/
def encodeLE (n : Nat) : Nat → List Nat
  | 0 => []
  | k + 1 => n % 256 :: encodeLE (n / 256) k

/-- MD5 padding for a message of `len` bytes: 0x80, zeros to 56 mod 64,
then the bit length as 8 little-endian bytes. -/
def md5Padding (len : Nat) : List Nat :=
  0x80 :: List.replicate ((119 - len % 64) % 64) 0 ++ encodeLE (8 * len) 8

def stateBytes (st : MD5State) : List Nat :=
  encodeLE st.a 4 ++ encodeLE st.b 4 ++ encodeLE st.c 4 ++ encodeLE st.d 4

/-- The 16 digest bytes of `md5.digest()`. -/
def md5Final (ctx : MD5Ctx) : List Nat :=
  stateBytes (blocksLoop ctx.st (ctx.buf ++ md5Padding ctx.len)).1

def hexDigitChars : List Char := "0123456789abcdef".data

def byteHex (b : Nat) : List Char :=
  [hexDigitChars.getD (b / 16 % 16) '0', hexDigitChars.getD (b % 16) '0']

def bytesToHex (bs : List Nat) : String :=
  String.mk ((bs.map byteHex).flatten)

/-- `md5.hexdigest()`. -/
def md5hexdigest (ctx : MD5Ctx) : String :=
  bytesToHex (md5Final ctx)

/-- One-shot (batch) MD5 of a whole byte sequence. -/
def md5Bytes (m : List Nat) : List Nat :=
  stateBytes (blocksLoop md5InitState (m ++ md5Padding m.length)).1

/-- One-shot MD5 hexdigest of a whole byte sequence. -/
def md5hex (m : List Nat) : String :=
  bytesToHex (md5Bytes m)

/-- UTF-8 encoding of one character (`str.encode('utf-8')`). -/
def utf8Char (c : Char) : List Nat :=
  let n := c.toNat
  if n < 0x80 then [n]
  else if n < 0x800 then [0xc0 ||| (n >>> 6), 0x80 ||| (n &&& 0x3f)]
  else if n < 0x10000 then
    [0xe0 ||| (n >>> 12), 0x80 ||| ((n >>> 6) &&& 0x3f), 0x80 ||| (n &&& 0x3f)]
  else
    [0xf0 ||| (n >>> 18), 0x80 ||| ((n >>> 12) &&& 0x3f),
     0x80 ||| ((n >>> 6) &&& 0x3f), 0x80 ||| (n &&& 0x3f)]

def utf8Bytes (s : String) : List Nat :=
  (s.data.map utf8Char).flatten

/-- `getfilehash`'s read/update loop: `data = handle.read(16384)`, break
on empty, else `md5.update(data)`.  Fuel = remaining byte count (each
iteration consumes at least one byte). -/
def md5ReadLoopF : Nat → MD5Ctx → List Nat → MD5Ctx
  | 0, ctx, _ => ctx
  | fuel + 1, ctx, bytes =>
      if bytes.isEmpty then ctx
      else md5ReadLoopF fuel (md5Update ctx (bytes.take 16384)) (bytes.drop 16384)

def md5ReadLoop (ctx : MD5Ctx) (bytes : List Nat) : MD5Ctx :=
  md5ReadLoopF bytes.length ctx bytes

/-- The hexdigest `getfilehash(filename)` computes for a readable file
whose bytes are `content`: md5 seeded with the UTF-8 file name, then fed
the content in 16384-byte chunks. -/
def getfilehashBytes (filename : String) (content : List Nat) : String :=
  md5hexdigest (md5ReadLoop (md5New (utf8Bytes filename)) content)

/-- `getfilehash(filename)`.  The local filesystem is abstracted as a map
from file name to `Option` byte content; `none` models the `IOError`
path (`open`/`read` failure), which returns Python None. -/
def getfilehash (fs : String → Option (List Nat)) (filename : String) :
    Option String :=
  match fs filename with
  | none => none
  | some content => some (getfilehashBytes filename content)

/-! ## remotedir.py

The FTP connection is abstracted by the two observations `RemoteDirLive`
makes of it for one directory: `nlst()` (the listing) and `size(leaf)`
(`some n`, or `none` for an `ftplib.error_perm`). -/

structure Conn where
  listing : List String
  sizeq : String → Option Int

/-- `RemoteDirLive._callback_get_file_size`: `connection.size`, with a
permission error interpreted as "directory" (−1). -/
def callback_get_file_size (conn : Conn) (leafname : String) : Int :=
  match conn.sizeq leafname with
  | some n => n
  | none => -1

/-- `RemoteDirLive._callback_get_file_hash`: if `connection.size`
succeeds the file is assumed correct; a permission error yields the
empty string. -/
def callback_get_file_hash (conn : Conn) (leafname : String) : HVal :=
  match conn.sizeq leafname with
  | some _ => HVal.assumedCorrect
  | none => HVal.str ""

/-- `RemoteDirLive.get_contents`: one entry per `nlst()` leaf, with both
fields stored as the (deferred) bound-method callbacks. -/
def live_get_contents (conn : Conn) : RemoteDirContents :=
  conn.listing.foldl
    (fun c leafname =>
      set_file c leafname (SizeField.cb (callback_get_file_size conn))
        (HashField.cb (callback_get_file_hash conn)))
    []

/-- `os.path.join` for the cases arising here (POSIX form).  The
prefix/suffix tests are phrased over the character list so that the
definition evaluates by kernel reduction. -/
def pathJoin (a b : String) : String :=
  if b.data.head? = some '/' then b
  else if a = "" then b
  else if a.data.getLast? = some '/' then a ++ b
  else a ++ "/" ++ b

/-- One iteration of `RemoteDirCached.get_contents`'s resolution loop for
key `leaf`: force size and hash; if the hash is the assumed-correct
sentinel, hash the mirroring local file, downgrading to the unknown
sentinel "?" (with a warning naming the attempted local file) when local
hashing fails.  Returns the resolved `RemoteFile` and the warnings
emitted. -/
def resolve_entry (fs : String → Option (List Nat)) (localdirname : String)
    (c : RemoteDirContents) (leaf : String) : RemoteFile × List String :=
  let size := get_file_size c leaf
  let hsh := get_file_hash c leaf
  if hsh = HVal.assumedCorrect then
    let localfilename := pathJoin localdirname leaf
    match getfilehash fs localfilename with
    | some d => (⟨SizeField.val size, HashField.val (HVal.str d)⟩, [])
    | none => (⟨SizeField.val size, HashField.val (HVal.str "?")⟩, [localfilename])
  else
    (⟨SizeField.val size, HashField.val hsh⟩, [])

/-- The resolution loop of `RemoteDirCached.get_contents`.  The Python
loop iterates over the dict's keys, reading each key's entry and writing
the resolved entry back under the same key; dict keys are unique and each
iteration touches only its own key, so the loop is a per-entry map (the
entry read for `leaf` is unaffected by the earlier writes, which went to
other keys). -/
def resolve_contents (fs : String → Option (List Nat)) (localdirname : String)
    (c : RemoteDirContents) : RemoteDirContents × List String :=
  (c.map (fun p => (p.1, (resolve_entry fs localdirname c p.1).1)),
   (c.map (fun p => (resolve_entry fs localdirname c p.1).2)).flatten)

/-- The in-memory snapshot-cache mapping (remote directory path →
snapshot), as the publisher consumes it: lookup and pointwise update.
The key type is a parameter (a path string, or a path as the list of its
components for the publisher's `pwd()` tracking). -/
abbrev CacheMap (κ : Type) : Type := κ → Option RemoteDirContents

/-- `Cache.get_dir_contents`. -/
def get_dir_contents {κ : Type} (cache : CacheMap κ) (k : κ) :
    Option RemoteDirContents :=
  cache k

/-- `Cache.set_dir_contents`. -/
def set_dir_contents {κ : Type} [DecidableEq κ] (cache : CacheMap κ) (k : κ)
    (c : RemoteDirContents) : CacheMap κ :=
  fun q => if q = k then some c else cache q

/-- `RemoteDirCached.get_contents`: return the cached snapshot when the
cache holds the directory (`if not contents` is the None test: a
`RemoteDirContents` object is always truthy); otherwise obtain the live
snapshot, resolve every entry, store the resolved snapshot in the cache
under the directory path (`connection.pwd()` at construction), and
return it.  Result: (snapshot, updated cache, warnings). -/
def cached_get_contents {κ : Type} [DecidableEq κ] (cache : CacheMap κ)
    (conn : Conn) (fs : String → Option (List Nat)) (localdirname : String)
    (dirname : κ) : RemoteDirContents × CacheMap κ × List String :=
  match cache dirname with
  | some contents => (contents, cache, [])
  | none =>
      let contents := live_get_contents conn
      let r := resolve_contents fs localdirname contents
      (r.1, set_dir_contents cache dirname r.1, r.2)

/-! ## cache.py — persistence

The JSON cache file is a document mapping directory-path strings to
objects mapping leaf names to `(size, hsh)` pairs.  JSON round-trips
ints, strings and null exactly; a callable is not serializable
(`json.dump` raises `TypeError`), so `save` is partial.  (`json.dump`'s
`sort_keys=True` writes object keys in sorted order; an object is a
mapping, and key order is not observable through `Cache`'s interface, so
the saved list keeps iteration order here.) -/

abbrev SavedDir : Type := List (String × (SVal × HVal))

abbrev SavedCache : Type := List (String × SavedDir)

/-- The in-memory `Cache._contents` dict, as an association list (for the
load/save round trip, which iterates it). -/
abbrev CacheL : Type := List (String × RemoteDirContents)

/-- `Cache.__init__`'s per-directory reload: a fresh `RemoteDirContents`
filled by `set_file(leaf, size, hsh)` per saved pair. -/
def load_dir (d : SavedDir) : RemoteDirContents :=
  d.foldl (fun c p => set_file c p.1 (SizeField.val p.2.1) (HashField.val p.2.2)) []

/-- `Cache.__init__` when the file exists: `self._contents[dirname] =
dircontentsobj` per saved directory. -/
def load_cache (f : SavedCache) : CacheL :=
  f.foldl (fun acc p => setA acc p.1 (load_dir p.2)) []

/-- A stored `RemoteFile`'s serializable form, when both slots are
concrete values. -/
def savedField : RemoteFile → Option (SVal × HVal)
  | ⟨SizeField.val v, HashField.val h⟩ => some (v, h)
  | _ => none

/-- Serialize one directory's `_contents` dict (entry order is the dict's
iteration order; `json.dump` fails on a non-value, e.g. a callable). -/
def save_dir : RemoteDirContents → Option SavedDir
  | [] => some []
  | (leaf, rf) :: rest =>
      match savedField rf, save_dir rest with
      | some e, some d => some ((leaf, e) :: d)
      | _, _ => none

/-- `Cache.save`: serialize every directory. -/
def save_cache : CacheL → Option SavedCache
  | [] => some []
  | (dn, c) :: rest =>
      match save_dir c, save_cache rest with
      | some d, some f => some ((dn, d) :: f)
      | _, _ => none

/-! ## sitepublisher.py — SitePublisher.syncdir

The local tree is a value: per directory, the files (leaf name, byte
content, mtime) and the subdirectories.  `os.listdir` enumisation order
is irrelevant to the model's observables (files are sorted before
processing; subdirectories keep list order).  The remote working
directory (`connection.pwd()`) is tracked as the list of path components
entered by `cwd`; the remote server is abstracted as a `Conn` per
working directory.  The two `assert`s in `_should_store` make a run
partial: `none` models an `AssertionError` aborting `syncdir`.  Uploads
are reported as the list of local paths stored, in execution order.
The model is the `self.cache` branch of `syncdir` (a `CacheMap` keyed by
working directory), with `recurse=True`; a leaf directory (empty
forest) is the `recurse=False` behaviour. -/

structure LFile where
  content : List Nat
  mtime : Int
deriving DecidableEq

mutual

inductive LTree : Type where
  | node (files : List (String × LFile)) (subdirs : LForest)
deriving DecidableEq

inductive LForest : Type where
  | nil
  | cons (name : String) (tree : LTree) (rest : LForest)
deriving DecidableEq

end

/-- `goodextension(f)`: `f` ends with one of the extensions. -/
def goodextension (extensions : List String) (f : String) : Bool :=
  extensions.any (fun ext => ext.data.isSuffixOf f.data)

/-- The extension filter: applied only when `extensions` is given and
non-empty (`if extensions:` — both None and an empty list are falsy). -/
def filterExtensions (extensions : Option (List String)) (files : List String) :
    List String :=
  match extensions with
  | none => files
  | some exts => if exts.isEmpty then files else files.filter (goodextension exts)

/-- The per-directory pipeline picking and ordering the files to process:
`localfiles = sorted(extension-filtered file names)`.  Lean's `≤` on
`String` is lexicographic on the character (code point) lists, matching
Python's string ordering. -/
def localfilesOf (extensions : Option (List String)) (names : List String) :
    List String :=
  List.insertionSort (fun a b => a ≤ b) (filterExtensions extensions names)

/-- The local-filesystem view of one directory, path-keyed, for the cache
resolution step's `getfilehash(os.path.join(localdirname, leaf))`. -/
def dirFS (localdirname : String) (files : List (String × LFile)) :
    String → Option (List Nat) :=
  fun path =>
    (lookupA (files.map (fun p => (pathJoin localdirname p.1, p.2.content))) path)

/-- The per-file loop of `syncdir`: for each leaf (in the given order),
decide via `_should_store`; on store, upload (record the local path) and
write the fresh size and hash back into the snapshot via `set_file`.
The model's local filesystem is a consistent snapshot, so a file being
uploaded is readable and `getfilehash` returns a digest.  `none`
propagates an `AssertionError` from `_should_store`. -/
def processFiles (today : Int) (submit : Nat) (files : List (String × LFile))
    (localdirname : String) :
    List String → RemoteDirContents → Option (RemoteDirContents × List String)
  | [], remotefiles => some (remotefiles, [])
  | leaf :: rest, remotefiles =>
      match lookupA files leaf with
      | none => processFiles today submit files localdirname rest remotefiles
      | some lf =>
          let localf := pathJoin localdirname leaf
          let localHash := some (getfilehashBytes localf lf.content)
          match should_store remotefiles submit today lf.mtime
              (Int.ofNat lf.content.length) localHash leaf with
          | none => none
          | some true =>
              match processFiles today submit files localdirname rest
                  (set_file remotefiles leaf
                    (SizeField.val (SVal.int (Int.ofNat lf.content.length)))
                    (HashField.val (optToHVal localHash))) with
              | none => none
              | some (rf, ups) => some (rf, localf :: ups)
          | some false => processFiles today submit files localdirname rest remotefiles

def LTree.files : LTree → List (String × LFile)
  | .node fs _ => fs

def LTree.subdirs : LTree → LForest
  | .node _ sd => sd

/-- Leaf names of a forest (the subdirectory names `os.listdir` yields). -/
def forestNames : LForest → List String
  | .nil => []
  | .cons d _ rest => d :: forestNames rest

/-- The remote working directory `syncdir` operates in: entering
`remotedirname` (when non-empty — `if remotedirname:`) appends one path
component to the current `pwd`. -/
def effKey (pwd : List String) (remotedirname : String) : List String :=
  if remotedirname = "" then pwd else pwd ++ [remotedirname]

mutual

/-- `SitePublisher.syncdir(dirname=localdirname, remotedirname, submit,
recurse=True)` under a cache.  `pwd` is the remote working directory on
entry; entering `remotedirname` (when non-empty — `if remotedirname:`)
appends a component, and the `RemoteDirCached` is keyed by the resulting
`connection.pwd()`.  Returns the updated cache and the uploaded local
paths; the final `cwd(oldcwd)` restore is implicit (the caller's `pwd`
is unchanged).  The `MKDIR` interaction only mutates the remote side and
is not an observable of this model. -/
def syncdirM (today : Int) (remote : List String → Conn)
    (extensions : Option (List String)) (submit : Nat) (tree : LTree)
    (localdirname remotedirname : String) (pwd : List String)
    (cache : CacheMap (List String)) :
    Option (CacheMap (List String) × List String) :=
  match tree with
  | .node files subdirs =>
      let pwdNew := effKey pwd remotedirname
      let localfiles := localfilesOf extensions (files.map Prod.fst)
      let r := cached_get_contents cache (remote pwdNew) (dirFS localdirname files)
        localdirname pwdNew
      match processFiles today submit files localdirname localfiles r.1 with
      | none => none
      | some (remotefiles2, ups) =>
          -- `set_file` mutates the very object held by the cache (the
          -- cached copy on a hit, the freshly stored copy on a miss), so
          -- the cache holds the post-upload snapshot.
          let cache2 := set_dir_contents r.2.1 pwdNew remotefiles2
          match syncForest today remote extensions submit subdirs localdirname
              pwdNew cache2 with
          | none => none
          | some (cache3, ups2) => some (cache3, ups ++ ups2)

/-- The recursion over subdirectories: skip names beginning with `'.'`,
otherwise `syncdir(os.path.join(localdirname, d), extensions,
remotedirname=d, submit, recurse)`. -/
def syncForest (today : Int) (remote : List String → Conn)
    (extensions : Option (List String)) (submit : Nat) (subdirs : LForest)
    (localdirname : String) (pwd : List String)
    (cache : CacheMap (List String)) :
    Option (CacheMap (List String) × List String) :=
  match subdirs with
  | .nil => some (cache, [])
  | .cons d sub rest =>
      if d.data.head? = some '.' then
        syncForest today remote extensions submit rest localdirname pwd cache
      else
        match syncdirM today remote extensions submit sub
            (pathJoin localdirname d) d pwd cache with
        | none => none
        | some (cache2, ups1) =>
            match syncForest today remote extensions submit rest localdirname
                pwd cache2 with
            | none => none
            | some (cache3, ups2) => some (cache3, ups1 ++ ups2)

end

/-- Boolean no-duplicates check on leaf names. -/
def nodupB : List String → Bool
  | [] => true
  | x :: xs => !(xs.contains x) && nodupB xs

mutual

/-- Well-formedness of a local tree as `os.listdir` guarantees it: within
each directory, file names are distinct, subdirectory names are distinct,
and no directory entry is the empty name. -/
def wfTree : LTree → Bool
  | .node files subdirs =>
      nodupB (files.map Prod.fst) && nodupB (forestNames subdirs) &&
        wfForest subdirs

def wfForest : LForest → Bool
  | .nil => true
  | .cons d sub rest => decide (d ≠ "") && wfTree sub && wfForest rest

end

/-! ## Association-list lemmas -/

theorem lookupA_setA {β : Type} (c : List (String × β)) (k k' : String) (v : β) :
    lookupA (setA c k v) k' = if k' = k then some v else lookupA c k' := by
  induction c with
  | nil =>
      simp only [setA, lookupA]
      by_cases h : k' = k
      · simp [h]
      · simp [h, Ne.symm h]
  | cons p rest ih =>
      obtain ⟨pk, pv⟩ := p
      simp only [setA]
      by_cases h1 : pk = k
      · simp only [if_pos h1, lookupA]
        by_cases h : k' = k
        · simp [h]
        · simp [h, Ne.symm h, h1]
      · simp only [if_neg h1, lookupA]
        by_cases h2 : pk = k'
        · have hkk : ¬(k' = k) := fun hh => h1 (h2.trans hh)
          simp [h2, hkk]
        · simp [h2, ih]

theorem lookupA_eq_some_of_mem {β : Type} (c : List (String × β)) (k : String)
    (h : k ∈ c.map Prod.fst) : ∃ v, lookupA c k = some v ∧ (k, v) ∈ c := by
  induction c with
  | nil => simp at h
  | cons p rest ih =>
      obtain ⟨pk, pv⟩ := p
      by_cases h1 : pk = k
      · subst h1; exact ⟨pv, by simp [lookupA], by simp⟩
      · simp only [List.map_cons, List.mem_cons] at h
        rcases h with h | h
        · exact absurd h.symm h1
        · obtain ⟨v, hv, hmem⟩ := ih h
          exact ⟨v, by simp [lookupA, h1, hv], by simp [hmem]⟩

theorem lookupA_eq_none_of_not_mem {β : Type} (c : List (String × β)) (k : String)
    (h : k ∉ c.map Prod.fst) : lookupA c k = none := by
  induction c with
  | nil => rfl
  | cons p rest ih =>
      simp only [List.map_cons, List.mem_cons] at h
      push_neg at h
      have h1 : ¬(p.1 = k) := Ne.symm h.1
      simp [lookupA, h1, ih h.2]

/-- `should_store` inspects the snapshot only through the entry stored
under `leaf`. -/
theorem should_store_congr (c₁ c₂ : RemoteDirContents) (submit : Nat)
    (today mtime localSize : Int) (localHash : Option String) (leaf : String)
    (h : lookupA c₁ leaf = lookupA c₂ leaf) :
    should_store c₁ submit today mtime localSize localHash leaf =
      should_store c₂ submit today mtime localSize localHash leaf := by
  simp only [should_store, get_file_size, get_file_hash, h]

/-! ## Claim C2 -/

/-- C2: for every policy value that includes the `AllFiles` flag (all
flag bits set) and every remote snapshot, local size, local mtime,
cutoff and local hash, `_should_store` returns store (the first rule
short-circuits everything else, including the assertions). -/
theorem all_flag_always_stores (remotefiles : RemoteDirContents) (submit : Nat)
    (h : submit &&& Submit.AllFiles = Submit.AllFiles)
    (today mtime localSize : Int) (localHash : Option String) (leaf : String) :
    should_store remotefiles submit today mtime localSize localHash leaf =
      some true := by
  simp [should_store, h]

/-- Witness for C2 at a concrete input: `submit = Submit.AllFiles` against
an empty snapshot. -/
theorem all_flag_always_stores_witness :
    Submit.AllFiles &&& Submit.AllFiles = Submit.AllFiles ∧
      should_store [] Submit.AllFiles 0 (-5) 17 none "index.html" = some true :=
  ⟨by decide, all_flag_always_stores [] Submit.AllFiles (by decide) 0 (-5) 17
    none "index.html"⟩

/-! ## Claim C1 -/

theorem optToHVal_ne_missingS (o : Option String) : optToHVal o ≠ HVal.missingS := by
  cases o <;> simp [optToHVal]

theorem optToHVal_ne_isDirS (o : Option String) : optToHVal o ≠ HVal.isDirS := by
  cases o <;> simp [optToHVal]

theorem optToHVal_ne_assumedCorrect (o : Option String) :
    optToHVal o ≠ HVal.assumedCorrect := by
  cases o <;> simp [optToHVal]

/-- C1: the `MissingOrChanged` rule of `_should_store`, when no earlier
rule fired.  (i) A missing entry or size mismatch stores.  (ii) On a size
match with the assumed-correct fingerprint the result is skip, for every
value of the local fingerprint (so no recomputation is needed).  (iii) On
a size match with any other fingerprint (the claim's context excludes the
missing/is-directory sentinels, which trip the assertions), the result is
store exactly when the recorded fingerprint differs from the computed
local fingerprint, Python-compared; the unknown sentinel "?" always
differs from a freshly computed local fingerprint (an md5 hexdigest or
None, never "?"), forcing a store. -/
theorem missing_or_changed_rule (remotefiles : RemoteDirContents) (submit : Nat)
    (today mtime localSize : Int) (localHash : Option String) (leaf : String)
    (hall : submit &&& Submit.AllFiles ≠ Submit.AllFiles)
    (hct : ¬(submit &&& Submit.ChangedToday ≠ 0 ∧ today ≤ mtime))
    (hmc : submit &&& Submit.MissingOrChanged ≠ 0) :
    (get_file_size remotefiles leaf ≠ SVal.int localSize →
      should_store remotefiles submit today mtime localSize localHash leaf =
        some true) ∧
    (get_file_size remotefiles leaf = SVal.int localSize →
      get_file_hash remotefiles leaf = HVal.assumedCorrect →
      ∀ lh : Option String,
        should_store remotefiles submit today mtime localSize lh leaf =
          some false) ∧
    (get_file_size remotefiles leaf = SVal.int localSize →
      get_file_hash remotefiles leaf ≠ HVal.assumedCorrect →
      get_file_hash remotefiles leaf ≠ HVal.missingS →
      get_file_hash remotefiles leaf ≠ HVal.isDirS →
      ((should_store remotefiles submit today mtime localSize localHash leaf =
          some true ↔
        get_file_hash remotefiles leaf ≠ optToHVal localHash) ∧
       (get_file_hash remotefiles leaf = HVal.str "?" → localHash ≠ some "?" →
        should_store remotefiles submit today mtime localSize localHash leaf =
          some true))) := by
  refine ⟨?_, ?_, ?_⟩
  · intro hsz
    simp [should_store, hall, hct, hmc, Ne.symm hsz]
  · intro hsz hac lh
    simp [should_store, hall, hct, hmc, hsz, hac]
  · intro hsz hac hm hd
    have main : should_store remotefiles submit today mtime localSize localHash
        leaf = some true ↔
        get_file_hash remotefiles leaf ≠ optToHVal localHash := by
      by_cases hne : get_file_hash remotefiles leaf = optToHVal localHash
      · simp [should_store, hall, hct, hmc, hsz, hne, optToHVal_ne_missingS,
          optToHVal_ne_isDirS]
      · simp [should_store, hall, hct, hmc, hsz, hm, hd, hac, hne]
    refine ⟨main, ?_⟩
    intro hq hlh
    rw [main, hq]
    cases localHash with
    | none => simp [optToHVal]
    | some s =>
        simp only [optToHVal, ne_eq, HVal.str.injEq]
        intro hs
        exact hlh (by rw [hs])

/-- Witness for C1 at concrete inputs: a matching-size entry with the
unknown fingerprint "?" forces a store, and one with the assumed-correct
sentinel skips. -/
theorem missing_or_changed_rule_witness :
    should_store
        [("f", ⟨SizeField.val (SVal.int 5), HashField.val (HVal.str "?")⟩)]
        Submit.MissingOrChanged 0 (-1) 5 (some "0123") "f" = some true ∧
      should_store
        [("g", ⟨SizeField.val (SVal.int 5), HashField.val HVal.assumedCorrect⟩)]
        Submit.MissingOrChanged 0 (-1) 5 none "g" = some false :=
  ⟨((missing_or_changed_rule
      [("f", ⟨SizeField.val (SVal.int 5), HashField.val (HVal.str "?")⟩)]
      Submit.MissingOrChanged 0 (-1) 5 (some "0123") "f"
      (by decide) (by decide) (by decide)).2.2 (by decide) (by decide)
      (by decide) (by decide)).2 (by decide) (by decide),
   (missing_or_changed_rule
      [("g", ⟨SizeField.val (SVal.int 5), HashField.val HVal.assumedCorrect⟩)]
      Submit.MissingOrChanged 0 (-1) 5 none "g"
      (by decide) (by decide) (by decide)).2.1 (by decide) (by decide) none⟩

/-! ## Live-strategy lemmas -/

/-- The (single) entry value `RemoteDirLive.get_contents` stores for every
listed leaf: both fields are the bound-method callbacks. -/
def cbEntry (conn : Conn) : RemoteFile :=
  ⟨SizeField.cb (callback_get_file_size conn),
   HashField.cb (callback_get_file_hash conn)⟩

theorem lookupA_mem {β : Type} (c : List (String × β)) (k : String) (v : β)
    (h : lookupA c k = some v) : (k, v) ∈ c := by
  induction c with
  | nil => simp [lookupA] at h
  | cons p rest ih =>
      obtain ⟨pk, pv⟩ := p
      by_cases h1 : pk = k
      · subst h1
        have hv : pv = v := by simpa [lookupA] using h
        subst hv
        simp
      · simp only [lookupA, if_neg h1] at h
        simp [ih h]

theorem setA_preserves_all {β : Type} (P : String × β → Prop)
    (c : List (String × β)) (k : String) (v : β)
    (hc : ∀ p ∈ c, P p) (hv : P (k, v)) : ∀ p ∈ setA c k v, P p := by
  induction c with
  | nil => simpa [setA] using hv
  | cons q rest ih =>
      obtain ⟨qk, qv⟩ := q
      by_cases h1 : qk = k
      · simp only [setA, if_pos h1]
        intro p hp
        rcases List.mem_cons.mp hp with h | h
        · exact h ▸ hv
        · exact hc p (List.mem_cons_of_mem _ h)
      · simp only [setA, if_neg h1]
        intro p hp
        rcases List.mem_cons.mp hp with h | h
        · exact hc p (h ▸ List.mem_cons_self _ _)
        · exact ih (fun q hq => hc q (List.mem_cons_of_mem _ hq)) p h

theorem live_get_contents_all (conn : Conn) :
    ∀ p ∈ live_get_contents conn, p.2 = cbEntry conn := by
  have main : ∀ (l : List String) (acc : RemoteDirContents),
      (∀ p ∈ acc, p.2 = cbEntry conn) →
      ∀ p ∈ l.foldl
        (fun c leafname =>
          set_file c leafname (SizeField.cb (callback_get_file_size conn))
            (HashField.cb (callback_get_file_hash conn))) acc,
        p.2 = cbEntry conn := by
    intro l
    induction l with
    | nil => intro acc hacc; simpa using hacc
    | cons x xs ih =>
        intro acc hacc
        simp only [List.foldl_cons]
        exact ih _ (setA_preserves_all (fun p => p.2 = cbEntry conn) acc x _ hacc rfl)
  exact main conn.listing [] (by simp)

theorem mem_keys_setA_self {β : Type} (c : List (String × β)) (k : String) (v : β) :
    k ∈ (setA c k v).map Prod.fst := by
  induction c with
  | nil => simp [setA]
  | cons q rest ih =>
      obtain ⟨qk, qv⟩ := q
      by_cases h1 : qk = k
      · simp [setA, h1]
      · simp only [setA, if_neg h1, List.map_cons, List.mem_cons]
        exact Or.inr ih

theorem mem_keys_setA_mono {β : Type} (c : List (String × β)) (k k' : String)
    (v : β) (h : k' ∈ c.map Prod.fst) : k' ∈ (setA c k v).map Prod.fst := by
  induction c with
  | nil => simp at h
  | cons q rest ih =>
      obtain ⟨qk, qv⟩ := q
      simp only [List.map_cons, List.mem_cons] at h
      by_cases h1 : qk = k
      · simp only [setA, if_pos h1, List.map_cons, List.mem_cons]
        rcases h with h | h
        · exact Or.inl (h.trans h1)
        · exact Or.inr h
      · simp only [setA, if_neg h1, List.map_cons, List.mem_cons]
        rcases h with h | h
        · exact Or.inl h
        · exact Or.inr (ih h)

theorem live_get_contents_keys (conn : Conn) (leaf : String)
    (h : leaf ∈ conn.listing) :
    leaf ∈ (live_get_contents conn).map Prod.fst := by
  have main : ∀ (l : List String) (acc : RemoteDirContents),
      (leaf ∈ l ∨ leaf ∈ acc.map Prod.fst) →
      leaf ∈ (l.foldl
        (fun c leafname =>
          set_file c leafname (SizeField.cb (callback_get_file_size conn))
            (HashField.cb (callback_get_file_hash conn))) acc).map Prod.fst := by
    intro l
    induction l with
    | nil =>
        intro acc hacc
        simpa using hacc.resolve_left (by simp)
    | cons x xs ih =>
        intro acc hacc
        simp only [List.foldl_cons]
        apply ih
        rcases hacc with h | h
        · rcases List.mem_cons.mp h with h | h
          · exact Or.inr (h ▸ mem_keys_setA_self acc x _)
          · exact Or.inl h
        · exact Or.inr (mem_keys_setA_mono acc x leaf _ h)
  exact main conn.listing [] (Or.inl h)

theorem lookupA_live (conn : Conn) (leaf : String) (h : leaf ∈ conn.listing) :
    lookupA (live_get_contents conn) leaf = some (cbEntry conn) := by
  obtain ⟨v, hv, hmem⟩ :=
    lookupA_eq_some_of_mem (live_get_contents conn) leaf
      (live_get_contents_keys conn leaf h)
  have h2 : v = cbEntry conn := live_get_contents_all conn (leaf, v) hmem
  rw [hv, h2]

theorem get_file_size_live (conn : Conn) (leaf : String)
    (h : leaf ∈ conn.listing) :
    get_file_size (live_get_contents conn) leaf =
      SVal.int (callback_get_file_size conn leaf) := by
  simp [get_file_size, lookupA_live conn leaf h, cbEntry]

theorem get_file_hash_live (conn : Conn) (leaf : String)
    (h : leaf ∈ conn.listing) :
    get_file_hash (live_get_contents conn) leaf =
      callback_get_file_hash conn leaf := by
  simp [get_file_hash, lookupA_live conn leaf h, cbEntry]

theorem get_file_hash_live_cases (conn : Conn) (leaf : String) :
    get_file_hash (live_get_contents conn) leaf = HVal.nil ∨
      get_file_hash (live_get_contents conn) leaf =
        callback_get_file_hash conn leaf := by
  cases h : lookupA (live_get_contents conn) leaf with
  | none => exact Or.inl (by simp [get_file_hash, h])
  | some rf =>
      have h2 : rf = cbEntry conn :=
        live_get_contents_all conn (leaf, rf) (lookupA_mem _ _ _ h)
      exact Or.inr (by simp [get_file_hash, h, h2, cbEntry])

/-! ## Resolution lemmas -/

theorem lookupA_mapWithKey {β γ : Type} (g : String → γ)
    (c : List (String × β)) (k : String) :
    lookupA (c.map (fun p => (p.1, g p.1))) k =
      (lookupA c k).map (fun _ => g k) := by
  induction c with
  | nil => simp [lookupA]
  | cons p rest ih =>
      obtain ⟨pk, pv⟩ := p
      by_cases h1 : pk = k
      · subst h1; simp [lookupA]
      · simp [lookupA, h1, ih]

theorem lookupA_resolve (fs : String → Option (List Nat)) (ld : String)
    (c : RemoteDirContents) (leaf : String) :
    lookupA (resolve_contents fs ld c).1 leaf =
      (lookupA c leaf).map (fun _ => (resolve_entry fs ld c leaf).1) :=
  lookupA_mapWithKey (fun x => (resolve_entry fs ld c x).1) c leaf

/-- The resolved fingerprint of a present entry, in terms of the forced
original fingerprint and the local hash. -/
theorem get_file_hash_resolve (fs : String → Option (List Nat)) (ld : String)
    (c : RemoteDirContents) (leaf : String) (rf : RemoteFile)
    (h : lookupA c leaf = some rf) :
    get_file_hash (resolve_contents fs ld c).1 leaf =
      (if get_file_hash c leaf = HVal.assumedCorrect then
        match getfilehash fs (pathJoin ld leaf) with
        | some d => HVal.str d
        | none => HVal.str "?"
      else get_file_hash c leaf) := by
  by_cases hac : get_file_hash c leaf = HVal.assumedCorrect
  · rw [if_pos hac]
    cases hg : getfilehash fs (pathJoin ld leaf) with
    | some d =>
        have hr : (resolve_entry fs ld c leaf).1.hsh =
            HashField.val (HVal.str d) := by
          simp [resolve_entry, hac, hg]
        simp [get_file_hash, lookupA_resolve, h, hr]
    | none =>
        have hr : (resolve_entry fs ld c leaf).1.hsh =
            HashField.val (HVal.str "?") := by
          simp [resolve_entry, hac, hg]
        simp [get_file_hash, lookupA_resolve, h, hr]
  · rw [if_neg hac]
    have hr : (resolve_entry fs ld c leaf).1.hsh =
        HashField.val (get_file_hash c leaf) := by
      simp [resolve_entry, hac]
    simp [get_file_hash, lookupA_resolve, h, hr]

theorem get_file_size_resolve (fs : String → Option (List Nat)) (ld : String)
    (c : RemoteDirContents) (leaf : String) (rf : RemoteFile)
    (h : lookupA c leaf = some rf) :
    get_file_size (resolve_contents fs ld c).1 leaf = get_file_size c leaf := by
  have hr : (resolve_entry fs ld c leaf).1.size =
      SizeField.val (get_file_size c leaf) := by
    by_cases hac : get_file_hash c leaf = HVal.assumedCorrect
    · cases hg : getfilehash fs (pathJoin ld leaf) <;> simp [resolve_entry, hac, hg]
    · simp [resolve_entry, hac]
  simp [get_file_size, lookupA_resolve, h, hr]

/-! ## Claim C9 -/

/-- C9: for a listed leaf whose remote size query raises a permission
error, the Live strategy records the directory-marker size −1 (no error
surfaces), and its fingerprint query yields the empty string — distinct
from the is-directory, assumed-correct, unknown and absent sentinels —
which the Cached strategy's resolution passes through unchanged, both in
the resolved snapshot and in the snapshot stored in the cache on a
miss. -/
theorem perm_error_is_directory (conn : Conn) (leaf : String)
    (fs : String → Option (List Nat)) (localdirname : String)
    (cache : CacheMap String) (dirname : String)
    (hmem : leaf ∈ conn.listing) (hperm : conn.sizeq leaf = none)
    (hmiss : cache dirname = none) :
    get_file_size (live_get_contents conn) leaf = SVal.int (-1) ∧
    get_file_hash (live_get_contents conn) leaf = HVal.str "" ∧
    (HVal.str "" ≠ HVal.isDirS ∧ HVal.str "" ≠ HVal.assumedCorrect ∧
      HVal.str "" ≠ HVal.str "?" ∧ HVal.str "" ≠ HVal.nil) ∧
    get_file_hash
      (resolve_contents fs localdirname (live_get_contents conn)).1 leaf =
      HVal.str "" ∧
    (cached_get_contents cache conn fs localdirname dirname).2.1 dirname =
      some (resolve_contents fs localdirname (live_get_contents conn)).1 := by
  have hsz : get_file_size (live_get_contents conn) leaf = SVal.int (-1) := by
    rw [get_file_size_live conn leaf hmem]
    simp [callback_get_file_size, hperm]
  have hh : get_file_hash (live_get_contents conn) leaf = HVal.str "" := by
    rw [get_file_hash_live conn leaf hmem]
    simp [callback_get_file_hash, hperm]
  refine ⟨hsz, hh, by simp, ?_, ?_⟩
  · rw [get_file_hash_resolve fs localdirname (live_get_contents conn) leaf
      (cbEntry conn) (lookupA_live conn leaf hmem)]
    rw [hh]
    simp
  · simp [cached_get_contents, hmiss, set_dir_contents]

/-- Witness for C9 at a concrete connection whose size query fails. -/
theorem perm_error_is_directory_witness :
    get_file_size (live_get_contents ⟨["sub"], fun _ => none⟩) "sub" =
        SVal.int (-1) ∧
      get_file_hash (live_get_contents ⟨["sub"], fun _ => none⟩) "sub" =
        HVal.str "" ∧
      (HVal.str "" ≠ HVal.isDirS ∧ HVal.str "" ≠ HVal.assumedCorrect ∧
        HVal.str "" ≠ HVal.str "?" ∧ HVal.str "" ≠ HVal.nil) ∧
      get_file_hash
        (resolve_contents (fun _ => none) "site"
          (live_get_contents ⟨["sub"], fun _ => none⟩)).1 "sub" =
        HVal.str "" ∧
      (cached_get_contents (fun _ => none) ⟨["sub"], fun _ => none⟩
          (fun _ => none) "site" "/www").2.1 "/www" =
        some (resolve_contents (fun _ => none) "site"
          (live_get_contents ⟨["sub"], fun _ => none⟩)).1 :=
  perm_error_is_directory ⟨["sub"], fun _ => none⟩ "sub" (fun _ => none) "site"
    (fun _ => none) "/www" (by decide) rfl rfl

/-! ## Claim C8 -/

/-- A snapshot none of whose fingerprint reads yields the missing or
is-directory int sentinel (the values the two assertions in
`_should_store` rule out). -/
def sentinel_free (c : RemoteDirContents) : Prop :=
  ∀ leaf, get_file_hash c leaf ≠ HVal.missingS ∧
    get_file_hash c leaf ≠ HVal.isDirS

/-- C8: snapshots from the Live strategy are sentinel-free; the Cached
strategy's resolution step and the Publisher's post-upload `set_file`
update preserve sentinel-freedom; and on a sentinel-free snapshot
`_should_store` never hits its assertions (never returns the
`AssertionError` outcome `none`), in particular whenever it reaches the
fingerprint inspection step. -/
theorem assertions_cannot_fail :
    (∀ conn : Conn, sentinel_free (live_get_contents conn)) ∧
    (∀ (fs : String → Option (List Nat)) (ld : String)
        (c : RemoteDirContents), sentinel_free c →
      sentinel_free (resolve_contents fs ld c).1) ∧
    (∀ (c : RemoteDirContents) (leaf : String) (sz : SVal)
        (lh : Option String), sentinel_free c →
      sentinel_free
        (set_file c leaf (SizeField.val sz) (HashField.val (optToHVal lh)))) ∧
    (∀ (c : RemoteDirContents) (submit : Nat) (today mtime localSize : Int)
        (localHash : Option String) (leaf : String), sentinel_free c →
      should_store c submit today mtime localSize localHash leaf ≠ none) := by
  refine ⟨?_, ?_, ?_, ?_⟩
  · intro conn leaf
    rcases get_file_hash_live_cases conn leaf with h | h
    · simp [h]
    · rw [h]
      unfold callback_get_file_hash
      cases conn.sizeq leaf <;> simp
  · intro fs ld c hc leaf
    cases h : lookupA c leaf with
    | none =>
        have : lookupA (resolve_contents fs ld c).1 leaf = none := by
          rw [lookupA_resolve, h]; rfl
        simp [get_file_hash, this]
    | some rf =>
        rw [get_file_hash_resolve fs ld c leaf rf h]
        by_cases hac : get_file_hash c leaf = HVal.assumedCorrect
        · rw [if_pos hac]
          cases hg : getfilehash fs (pathJoin ld leaf) <;> simp
        · rw [if_neg hac]
          exact hc leaf
  · intro c leaf sz lh hc leaf'
    unfold set_file
    by_cases h : leaf' = leaf
    · subst h
      simp [get_file_hash, lookupA_setA, optToHVal_ne_missingS,
        optToHVal_ne_isDirS]
    · have : lookupA (setA c leaf ⟨SizeField.val sz,
          HashField.val (optToHVal lh)⟩) leaf' = lookupA c leaf' := by
        rw [lookupA_setA]
        exact if_neg h
      constructor
      · simpa [get_file_hash, this] using (hc leaf').1
      · simpa [get_file_hash, this] using (hc leaf').2
  · intro c submit today mtime localSize localHash leaf hc
    unfold should_store
    by_cases h1 : submit &&& Submit.AllFiles = Submit.AllFiles
    · simp [h1]
    · rw [if_neg h1]
      by_cases h2 : submit &&& Submit.ChangedToday ≠ 0 ∧ today ≤ mtime
      · simp [h2]
      · rw [if_neg h2]
        by_cases h3 : submit &&& Submit.MissingOrChanged ≠ 0
        · rw [if_pos h3]
          by_cases h4 : SVal.int localSize ≠ get_file_size c leaf
          · simp [h4]
          · rw [if_neg h4]
            simp only [if_neg (hc leaf).1, if_neg (hc leaf).2]
            by_cases h5 : get_file_hash c leaf ≠ HVal.assumedCorrect ∧
                get_file_hash c leaf ≠ optToHVal localHash
            · simp [h5]
            · simp [h5]
        · simp [h3]

/-- Witness for C8: a concrete sentinel-free live snapshot on which the
decider reaches the fingerprint step and returns without an assertion
failure. -/
theorem assertions_cannot_fail_witness :
    should_store (live_get_contents ⟨["f"], fun _ => some 7⟩)
        Submit.MissingOrChanged 0 0 7 (some "d41d") "f" ≠ none :=
  assertions_cannot_fail.2.2.2 (live_get_contents ⟨["f"], fun _ => some 7⟩)
    Submit.MissingOrChanged 0 0 7 (some "d41d") "f"
    (assertions_cannot_fail.1 ⟨["f"], fun _ => some 7⟩)

/-! ## Claim C3 -/

theorem setA_not_mem {β : Type} (c : List (String × β)) (k : String) (v : β)
    (h : k ∉ c.map Prod.fst) : setA c k v = c ++ [(k, v)] := by
  induction c with
  | nil => simp [setA]
  | cons p rest ih =>
      obtain ⟨pk, pv⟩ := p
      simp only [List.map_cons, List.mem_cons] at h
      push_neg at h
      have h1 : ¬(pk = k) := Ne.symm h.1
      simp [setA, h1, ih h.2]

/-- Under a duplicate-free listing, the live snapshot is the listing in
order, each leaf bound to the callback entry. -/
theorem live_get_contents_eq (conn : Conn) (h : conn.listing.Nodup) :
    live_get_contents conn =
      conn.listing.map (fun leaf => (leaf, cbEntry conn)) := by
  have main : ∀ (l : List String) (acc : RemoteDirContents), l.Nodup →
      (∀ x ∈ l, x ∉ acc.map Prod.fst) →
      l.foldl
        (fun c leafname =>
          set_file c leafname (SizeField.cb (callback_get_file_size conn))
            (HashField.cb (callback_get_file_hash conn))) acc =
        acc ++ l.map (fun leaf => (leaf, cbEntry conn)) := by
    intro l
    induction l with
    | nil => intro acc _ _; simp
    | cons x xs ih =>
        intro acc hnd hfresh
        simp only [List.foldl_cons]
        rw [show set_file acc x (SizeField.cb (callback_get_file_size conn))
            (HashField.cb (callback_get_file_hash conn)) =
            acc ++ [(x, cbEntry conn)] from
          setA_not_mem acc x _ (hfresh x (List.mem_cons_self _ _))]
        rw [ih (acc ++ [(x, cbEntry conn)]) (List.Nodup.of_cons hnd) ?_]
        · simp
        · intro y hy
          simp only [List.map_append, List.mem_append]
          push_neg
          refine ⟨hfresh y (List.mem_cons_of_mem _ hy), ?_⟩
          simp only [List.map_cons, List.map_nil, List.mem_singleton]
          exact fun hyx => (List.nodup_cons.mp hnd).1 (hyx ▸ hy)
  exact main conn.listing [] h (by simp)

theorem flatten_map_eq_filter_map {α β : Type} (l : List α) (g : α → List β)
    (p : α → Bool) (f : α → β)
    (h : ∀ x ∈ l, g x = if p x then [f x] else []) :
    (l.map g).flatten = (l.filter p).map f := by
  induction l with
  | nil => simp
  | cons x xs ih =>
      simp only [List.map_cons, List.flatten_cons,
        h x (List.mem_cons_self _ _), List.filter_cons]
      cases hp : p x with
      | true => simp [ih (fun y hy => h y (List.mem_cons_of_mem _ hy))]
      | false => simp [ih (fun y hy => h y (List.mem_cons_of_mem _ hy))]

/-- The per-leaf fingerprint the claim predicts for the resolved snapshot
of a cache miss: remote directories (failed size query) keep the empty
string; remote files get the local mirror's digest, or the unknown
sentinel when the mirror cannot be hashed. -/
def resolvedHashSpec (conn : Conn) (fs : String → Option (List Nat))
    (ld : String) (leaf : String) : HVal :=
  match conn.sizeq leaf with
  | none => HVal.str ""
  | some _ =>
      match getfilehash fs (pathJoin ld leaf) with
      | some d => HVal.str d
      | none => HVal.str "?"

theorem resolve_live_hash (conn : Conn) (fs : String → Option (List Nat))
    (ld : String) (leaf : String) (hmem : leaf ∈ conn.listing) :
    get_file_hash (resolve_contents fs ld (live_get_contents conn)).1 leaf =
      resolvedHashSpec conn fs ld leaf := by
  rw [get_file_hash_resolve fs ld (live_get_contents conn) leaf (cbEntry conn)
    (lookupA_live conn leaf hmem)]
  rw [get_file_hash_live conn leaf hmem]
  unfold callback_get_file_hash resolvedHashSpec
  cases hq : conn.sizeq leaf with
  | none => simp
  | some n => cases hg : getfilehash fs (pathJoin ld leaf) <;> simp [hg]

/-- C3: the Cached strategy.  On a hit the cached snapshot is returned
directly, with the cache unchanged and no warning, for every connection
(no transport interaction).  On a miss, the returned snapshot is stored
in the cache under the directory path (other keys untouched); each listed
leaf carries the live size (−1 on a permission error) and the resolved
fingerprint (local digest, "?", or "" per `resolvedHashSpec`); and the
warnings are exactly the attempted local paths of remote files whose
local mirror could not be hashed, non-fatally. -/
theorem cached_strategy_contract :
    (∀ (cache : CacheMap String) (conn : Conn)
        (fs : String → Option (List Nat)) (ld dn : String)
        (c : RemoteDirContents),
      cache dn = some c →
      cached_get_contents cache conn fs ld dn = (c, cache, [])) ∧
    (∀ (cache : CacheMap String) (conn : Conn)
        (fs : String → Option (List Nat)) (ld dn : String),
      cache dn = none →
      (cached_get_contents cache conn fs ld dn).2.1 dn =
          some (cached_get_contents cache conn fs ld dn).1 ∧
        (∀ k, k ≠ dn →
          (cached_get_contents cache conn fs ld dn).2.1 k = cache k) ∧
        (∀ leaf ∈ conn.listing,
          get_file_size (cached_get_contents cache conn fs ld dn).1 leaf =
              SVal.int (callback_get_file_size conn leaf) ∧
            get_file_hash (cached_get_contents cache conn fs ld dn).1 leaf =
              resolvedHashSpec conn fs ld leaf) ∧
        (conn.listing.Nodup →
          (cached_get_contents cache conn fs ld dn).2.2 =
            (conn.listing.filter
              (fun leaf => (conn.sizeq leaf).isSome &&
                (getfilehash fs (pathJoin ld leaf)).isNone)).map
              (fun leaf => pathJoin ld leaf))) := by
  constructor
  · intro cache conn fs ld dn c h
    simp [cached_get_contents, h]
  · intro cache conn fs ld dn h
    refine ⟨?_, ?_, ?_, ?_⟩
    · simp [cached_get_contents, h, set_dir_contents]
    · intro k hk
      simp [cached_get_contents, h, set_dir_contents, hk]
    · intro leaf hmem
      constructor
      · simp only [cached_get_contents, h]
        rw [get_file_size_resolve fs ld (live_get_contents conn) leaf
          (cbEntry conn) (lookupA_live conn leaf hmem)]
        exact get_file_size_live conn leaf hmem
      · simp only [cached_get_contents, h]
        exact resolve_live_hash conn fs ld leaf hmem
    · intro hnd
      simp only [cached_get_contents, h]
      have hB : (resolve_contents fs ld (live_get_contents conn)).2 =
          ((live_get_contents conn).map
            (fun p => (resolve_entry fs ld (live_get_contents conn) p.1).2)).flatten := rfl
      show (resolve_contents fs ld (live_get_contents conn)).2 = _
      rw [hB, live_get_contents_eq conn hnd, List.map_map]
      refine flatten_map_eq_filter_map conn.listing _ _ _ ?_
      intro leaf hmem
      simp only [Function.comp_apply]
      unfold resolve_entry
      rw [show get_file_hash
          (conn.listing.map fun leaf => (leaf, cbEntry conn)) leaf =
          callback_get_file_hash conn leaf from by
        rw [← live_get_contents_eq conn hnd]
        exact get_file_hash_live conn leaf hmem]
      unfold callback_get_file_hash
      cases hq : conn.sizeq leaf with
      | none => simp
      | some n => cases hg : getfilehash fs (pathJoin ld leaf) <;> simp [hg]

/-- Witness for C3: a cache hit returns the cached snapshot unchanged;
on a miss over a two-entry listing (a file without a local mirror and a
permission-error directory), the resolved fingerprints are "?" and ""
and exactly one warning is emitted. -/
theorem cached_strategy_contract_witness :
    cached_get_contents (fun _ => some []) ⟨["x"], fun _ => none⟩
        (fun _ => none) "site" "/www" =
      ([], (fun _ => some []), []) ∧
    get_file_hash
        (cached_get_contents (fun _ => none)
          ⟨["x", "y"], fun l => if l = "y" then some 3 else none⟩
          (fun _ => none) "site" "/www").1 "y" = HVal.str "?" ∧
    get_file_hash
        (cached_get_contents (fun _ => none)
          ⟨["x", "y"], fun l => if l = "y" then some 3 else none⟩
          (fun _ => none) "site" "/www").1 "x" = HVal.str "" ∧
    (cached_get_contents (fun _ => none)
        ⟨["x", "y"], fun l => if l = "y" then some 3 else none⟩
        (fun _ => none) "site" "/www").2.2 = ["site/y"] := by
  refine ⟨cached_strategy_contract.1 (fun _ => some []) ⟨["x"], fun _ => none⟩
    (fun _ => none) "site" "/www" [] rfl, ?_, ?_, ?_⟩
  · exact ((cached_strategy_contract.2 (fun _ => none)
      ⟨["x", "y"], fun l => if l = "y" then some 3 else none⟩
      (fun _ => none) "site" "/www" rfl).2.2.1 "y" (by decide)).2.trans
      (by rfl)
  · exact ((cached_strategy_contract.2 (fun _ => none)
      ⟨["x", "y"], fun l => if l = "y" then some 3 else none⟩
      (fun _ => none) "site" "/www" rfl).2.2.1 "x" (by decide)).2.trans
      (by rfl)
  · exact ((cached_strategy_contract.2 (fun _ => none)
      ⟨["x", "y"], fun l => if l = "y" then some 3 else none⟩
      (fun _ => none) "site" "/www" rfl).2.2.2 (by decide)).trans (by decide)

/-! ## Claim C4 -/

/-- Every entry's fingerprint slot holds a concrete string value (a
digest, the unknown sentinel "?", or the directory marker "") — never an
int sentinel such as assumed-correct, never None, and never a deferred
callable. -/
def str_resolved (c : RemoteDirContents) : Prop :=
  ∀ p ∈ c, ∃ s : String, p.2.hsh = HashField.val (HVal.str s)

theorem get_file_hash_live_of_mem (conn : Conn) (q : String × RemoteFile)
    (hq : q ∈ live_get_contents conn) :
    get_file_hash (live_get_contents conn) q.1 =
      callback_get_file_hash conn q.1 := by
  have hk : q.1 ∈ (live_get_contents conn).map Prod.fst :=
    List.mem_map_of_mem _ hq
  obtain ⟨v, hv, hmem⟩ := lookupA_eq_some_of_mem _ _ hk
  have hc : v = cbEntry conn := live_get_contents_all conn _ hmem
  simp [get_file_hash, hv, hc, cbEntry]

/-- C4: every snapshot stored into the cache is fully resolved.  (i) The
Cached strategy's population step stores (and returns) a snapshot whose
every fingerprint is a concrete string — never the assumed-correct
sentinel, never a callable.  (ii) The Publisher's post-upload updates
(the per-file loop) preserve this invariant, each upload writing a
concrete digest string. -/
theorem cache_stores_resolved :
    (∀ (cache : CacheMap String) (conn : Conn)
        (fs : String → Option (List Nat)) (ld dn : String),
      cache dn = none →
      (cached_get_contents cache conn fs ld dn).2.1 dn =
          some (cached_get_contents cache conn fs ld dn).1 ∧
        str_resolved (cached_get_contents cache conn fs ld dn).1) ∧
    (∀ (today : Int) (submit : Nat) (files : List (String × LFile))
        (ldir : String) (leaves : List String) (X : RemoteDirContents)
        (r : RemoteDirContents × List String),
      str_resolved X →
      processFiles today submit files ldir leaves X = some r →
      str_resolved r.1) := by
  constructor
  · intro cache conn fs ld dn h
    refine ⟨by simp [cached_get_contents, h, set_dir_contents], ?_⟩
    simp only [cached_get_contents, h]
    intro p hp
    unfold resolve_contents at hp
    simp only [List.mem_map] at hp
    obtain ⟨q, hq, rfl⟩ := hp
    unfold resolve_entry
    by_cases hac : get_file_hash (live_get_contents conn) q.1 =
        HVal.assumedCorrect
    · rw [if_pos hac]
      cases hg : getfilehash fs (pathJoin ld q.1) with
      | some d => exact ⟨d, by simp [hg]⟩
      | none => exact ⟨"?", by simp [hg]⟩
    · rw [if_neg hac]
      have hcb := get_file_hash_live_of_mem conn q hq
      rw [hcb] at hac ⊢
      unfold callback_get_file_hash at hac ⊢
      cases hq2 : conn.sizeq q.1 with
      | none => exact ⟨"", by simp⟩
      | some n => rw [hq2] at hac; simp at hac
  · intro today submit files ldir leaves
    induction leaves with
    | nil =>
        intro X r hX h
        simp only [processFiles] at h
        cases h
        exact hX
    | cons leaf rest ih =>
        intro X r hX h
        simp only [processFiles] at h
        cases hlf : lookupA files leaf with
        | none =>
            simp only [hlf] at h
            exact ih X r hX h
        | some lf =>
            simp only [hlf] at h
            cases hd : should_store X submit today lf.mtime
                (Int.ofNat lf.content.length)
                (some (getfilehashBytes (pathJoin ldir leaf) lf.content))
                leaf with
            | none =>
                simp only [hd] at h
                exact Option.noConfusion h
            | some b =>
                simp only [hd] at h
                cases b with
                | true =>
                    cases hrec : processFiles today submit files ldir rest
                        (set_file X leaf
                          (SizeField.val (SVal.int (Int.ofNat lf.content.length)))
                          (HashField.val (optToHVal
                            (some (getfilehashBytes (pathJoin ldir leaf)
                              lf.content))))) with
                    | none =>
                        simp only [hrec] at h
                        exact Option.noConfusion h
                    | some q =>
                        obtain ⟨X2, ups2⟩ := q
                        simp only [hrec] at h
                        cases h
                        have hX2 : str_resolved (set_file X leaf
                            (SizeField.val (SVal.int (Int.ofNat lf.content.length)))
                            (HashField.val (optToHVal
                              (some (getfilehashBytes (pathJoin ldir leaf)
                                lf.content))))) := by
                          apply setA_preserves_all _ X leaf _ hX
                          exact ⟨getfilehashBytes (pathJoin ldir leaf) lf.content,
                            rfl⟩
                        exact ih _ (X2, ups2) hX2 hrec
                | false => exact ih X r hX h

/-- Witness for C4: concrete cache-miss population is string-resolved,
and a concrete run of the per-file loop preserves resolvedness. -/
theorem cache_stores_resolved_witness :
    str_resolved
      (cached_get_contents (fun _ => none) ⟨["x"], fun _ => none⟩
        (fun _ => none) "site" "/www").1 ∧
    str_resolved ([] : RemoteDirContents) :=
  ⟨(cache_stores_resolved.1 (fun _ => none) ⟨["x"], fun _ => none⟩
      (fun _ => none) "site" "/www" rfl).2,
   cache_stores_resolved.2 0 0 [("f", ⟨[], 0⟩)] "d" ["f"] [] ([], [])
     (by intro p hp; cases hp) (by rfl)⟩

/-! ## Claim C5 -/

/-- Folding dict assignment over fresh, duplicate-free keys rebuilds the
list in order. -/
theorem foldl_setA_of_fresh {α β : Type} (g : α → String) (v : α → β) :
    ∀ (l : List α) (acc : List (String × β)),
      (l.map g).Nodup → (∀ x ∈ l, g x ∉ acc.map Prod.fst) →
      l.foldl (fun c x => setA c (g x) (v x)) acc =
        acc ++ l.map (fun x => (g x, v x)) := by
  intro l
  induction l with
  | nil => intro acc _ _; simp
  | cons x xs ih =>
      intro acc hnd hfresh
      simp only [List.foldl_cons]
      rw [setA_not_mem acc (g x) (v x) (hfresh x (List.mem_cons_self _ _))]
      rw [ih (acc ++ [(g x, v x)]) ((List.map_cons g x xs ▸ hnd).of_cons) ?_]
      · simp
      · intro y hy
        simp only [List.map_append, List.mem_append]
        push_neg
        refine ⟨hfresh y (List.mem_cons_of_mem _ hy), ?_⟩
        simp only [List.map_cons, List.map_nil, List.mem_singleton]
        intro hgy
        have := (List.nodup_cons.mp (List.map_cons g x xs ▸ hnd)).1
        exact this (hgy ▸ List.mem_map_of_mem g hy)

theorem savedField_inv (rf : RemoteFile) (e : SVal × HVal)
    (h : savedField rf = some e) :
    rf = ⟨SizeField.val e.1, HashField.val e.2⟩ := by
  obtain ⟨sz, hs⟩ := rf
  cases sz with
  | val v =>
      cases hs with
      | val w =>
          simp only [savedField, Option.some.injEq] at h
          rw [← h]
      | cb f => simp [savedField] at h
  | cb f => cases hs <;> simp [savedField] at h

theorem save_dir_inv (c : RemoteDirContents) (d : SavedDir)
    (h : save_dir c = some d) :
    d.map (fun p => (p.1,
      RemoteFile.mk (SizeField.val p.2.1) (HashField.val p.2.2))) = c := by
  induction c generalizing d with
  | nil =>
      simp only [save_dir, Option.some.injEq] at h
      rw [← h]
      rfl
  | cons p rest ih =>
      obtain ⟨leaf, rf⟩ := p
      simp only [save_dir] at h
      cases he : savedField rf with
      | none => rw [he] at h; exact Option.noConfusion h
      | some e =>
          rw [he] at h
          cases hd : save_dir rest with
          | none => rw [hd] at h; exact Option.noConfusion h
          | some drest =>
              rw [hd] at h
              simp only [Option.some.injEq] at h
              rw [← h]
              simp only [List.map_cons, List.cons.injEq]
              exact ⟨by rw [← savedField_inv rf e he], ih drest hd⟩

theorem load_dir_eq_map (d : SavedDir) (hnd : (d.map Prod.fst).Nodup) :
    load_dir d = d.map (fun p => (p.1,
      RemoteFile.mk (SizeField.val p.2.1) (HashField.val p.2.2))) := by
  unfold load_dir set_file
  rw [foldl_setA_of_fresh Prod.fst
    (fun p => RemoteFile.mk (SizeField.val p.2.1) (HashField.val p.2.2))
    d [] hnd (by simp)]
  simp

theorem save_dir_keys (c : RemoteDirContents) (d : SavedDir)
    (h : save_dir c = some d) : d.map Prod.fst = c.map Prod.fst := by
  have := save_dir_inv c d h
  calc d.map Prod.fst
      = (d.map (fun p => (p.1,
          RemoteFile.mk (SizeField.val p.2.1) (HashField.val p.2.2)))).map
            Prod.fst := by
        rw [List.map_map]; rfl
    _ = c.map Prod.fst := by rw [this]

theorem load_save_dir (c : RemoteDirContents) (d : SavedDir)
    (hnd : (c.map Prod.fst).Nodup) (h : save_dir c = some d) :
    load_dir d = c := by
  rw [load_dir_eq_map d (by rw [save_dir_keys c d h]; exact hnd)]
  exact save_dir_inv c d h

theorem save_cache_inv (cl : CacheL) (f : SavedCache)
    (hdirs : ∀ p ∈ cl, ((p.2 : RemoteDirContents).map Prod.fst).Nodup)
    (h : save_cache cl = some f) :
    f.map (fun p => (p.1, load_dir p.2)) = cl := by
  induction cl generalizing f with
  | nil =>
      simp only [save_cache, Option.some.injEq] at h
      rw [← h]
      rfl
  | cons p rest ih =>
      obtain ⟨dn, c⟩ := p
      simp only [save_cache] at h
      cases hd : save_dir c with
      | none => rw [hd] at h; exact Option.noConfusion h
      | some d =>
          rw [hd] at h
          cases hf : save_cache rest with
          | none => rw [hf] at h; exact Option.noConfusion h
          | some frest =>
              rw [hf] at h
              simp only [Option.some.injEq] at h
              rw [← h]
              simp only [List.map_cons, List.cons.injEq]
              constructor
              · rw [load_save_dir c d
                  (hdirs (dn, c) (List.mem_cons_self _ _)) hd]
              · exact ih frest (fun q hq => hdirs q (List.mem_cons_of_mem _ hq)) hf

theorem save_cache_keys (cl : CacheL) (f : SavedCache)
    (hdirs : ∀ p ∈ cl, ((p.2 : RemoteDirContents).map Prod.fst).Nodup)
    (h : save_cache cl = some f) : f.map Prod.fst = cl.map Prod.fst := by
  have := save_cache_inv cl f hdirs h
  calc f.map Prod.fst
      = (f.map (fun p => (p.1, load_dir p.2))).map Prod.fst := by
        rw [List.map_map]; rfl
    _ = cl.map Prod.fst := by rw [this]

/-- C5: the persisted cache round-trips exactly.  Saving an in-memory
cache (all values serializable; dict keys unique at both levels, as dicts
guarantee) and reloading yields the identical mapping; in particular
every lookup agrees, each reloaded snapshot reports the same size and
fingerprint as the saved one for every leaf, and reports the absent
value (None) for every leaf that was not saved. -/
theorem cache_round_trip (cl : CacheL) (f : SavedCache)
    (hsave : save_cache cl = some f)
    (hnd : (cl.map Prod.fst).Nodup)
    (hdirs : ∀ p ∈ cl, ((p.2 : RemoteDirContents).map Prod.fst).Nodup) :
    load_cache f = cl ∧
    (∀ dn, lookupA (load_cache f) dn = lookupA cl dn) ∧
    (∀ dn c1, lookupA (load_cache f) dn = some c1 →
      ∀ leaf, leaf ∉ c1.map Prod.fst →
        get_file_size c1 leaf = SVal.nil ∧ get_file_hash c1 leaf = HVal.nil) := by
  have hload : load_cache f = cl := by
    unfold load_cache
    rw [foldl_setA_of_fresh Prod.fst (fun p => load_dir p.2) f []
      (by rw [save_cache_keys cl f hdirs hsave]; exact hnd) (by simp)]
    simpa using save_cache_inv cl f hdirs hsave
  refine ⟨hload, fun dn => by rw [hload], ?_⟩
  intro dn c1 _ leaf hleaf
  have hnone := lookupA_eq_none_of_not_mem c1 leaf hleaf
  exact ⟨by simp [get_file_size, hnone], by simp [get_file_hash, hnone]⟩

/-- Witness for C5 on the spec's example cache
`{"a/b": {"x.txt": (10, "abc123")}}`. -/
theorem cache_round_trip_witness :
    load_cache [("a/b", [("x.txt", (SVal.int 10, HVal.str "abc123"))])] =
        [("a/b", [("x.txt", RemoteFile.mk (SizeField.val (SVal.int 10))
          (HashField.val (HVal.str "abc123")))])] ∧
      get_file_size
          [("x.txt", RemoteFile.mk (SizeField.val (SVal.int 10))
            (HashField.val (HVal.str "abc123")))] "y.txt" = SVal.nil ∧
      get_file_hash
          [("x.txt", RemoteFile.mk (SizeField.val (SVal.int 10))
            (HashField.val (HVal.str "abc123")))] "y.txt" = HVal.nil := by
  have T := cache_round_trip
    [("a/b", [("x.txt", RemoteFile.mk (SizeField.val (SVal.int 10))
      (HashField.val (HVal.str "abc123")))])]
    [("a/b", [("x.txt", (SVal.int 10, HVal.str "abc123"))])]
    (by rfl) (by decide)
    (by
      intro p hp
      rcases List.mem_singleton.mp hp with rfl
      decide)
  refine ⟨T.1, ?_⟩
  have := T.2.2 "a/b"
    [("x.txt", RemoteFile.mk (SizeField.val (SVal.int 10))
      (HashField.val (HVal.str "abc123")))]
    (by rw [T.1]; rfl) "y.txt" (by decide)
  exact this

/-! ## Claim C7 — the incremental, seeded, chunked hash equals the batch
digest of path ‖ content -/

theorem blocksLoopF_congr : ∀ (f1 f2 : Nat) (st : MD5State) (bytes : List Nat),
    bytes.length ≤ f1 → bytes.length ≤ f2 →
    blocksLoopF f1 st bytes = blocksLoopF f2 st bytes := by
  intro f1
  induction f1 with
  | zero =>
      intro f2 st bytes h1 _
      have hb : bytes = [] := List.eq_nil_of_length_eq_zero (Nat.le_zero.mp h1)
      subst hb
      cases f2 <;> simp [blocksLoopF]
  | succ n ih =>
      intro f2 st bytes h1 h2
      cases f2 with
      | zero =>
          have hb : bytes = [] :=
            List.eq_nil_of_length_eq_zero (Nat.le_zero.mp h2)
          subst hb
          simp [blocksLoopF]
      | succ m =>
          simp only [blocksLoopF]
          by_cases h : 64 ≤ bytes.length
          · rw [if_pos h, if_pos h]
            apply ih
            · simp only [List.length_drop]; omega
            · simp only [List.length_drop]; omega
          · rw [if_neg h, if_neg h]

theorem blocksLoop_eq (st : MD5State) (bytes : List Nat) :
    blocksLoop st bytes =
      if 64 ≤ bytes.length then
        blocksLoop (processBlock st (bytes.take 64)) (bytes.drop 64)
      else (st, bytes) := by
  by_cases h : 64 ≤ bytes.length
  · rw [if_pos h]
    unfold blocksLoop
    have hL : bytes.length = (bytes.length - 1) + 1 := by omega
    rw [hL]
    simp only [blocksLoopF, if_pos h]
    apply blocksLoopF_congr
    · simp only [List.length_drop]; omega
    · exact le_rfl
  · rw [if_neg h]
    unfold blocksLoop
    cases hL : bytes.length with
    | zero => rfl
    | succ n =>
        rw [hL] at h
        simp [blocksLoopF, hL ▸ h]

theorem blocksLoop_append (x y : List Nat) (st : MD5State) :
    blocksLoop (blocksLoop st x).1 ((blocksLoop st x).2 ++ y) =
      blocksLoop st (x ++ y) := by
  by_cases h : 64 ≤ x.length
  · rw [blocksLoop_eq st x, if_pos h,
      blocksLoop_eq st (x ++ y),
      if_pos (by simp only [List.length_append]; omega),
      List.take_append_of_le_length h, List.drop_append_of_le_length h]
    exact blocksLoop_append (x.drop 64) y (processBlock st (x.take 64))
  · rw [blocksLoop_eq st x, if_neg h]
termination_by x.length
decreasing_by
  simp only [List.length_drop]
  omega

/-- The canonical context after absorbing message `m`. -/
def ctxOf (m : List Nat) : MD5Ctx :=
  ⟨(blocksLoop md5InitState m).1, (blocksLoop md5InitState m).2, m.length⟩

theorem md5New_eq (seed : List Nat) : md5New seed = ctxOf seed := by
  simp [md5New, md5Update, ctxOf]

theorem md5Update_ctxOf (m data : List Nat) :
    md5Update (ctxOf m) data = ctxOf (m ++ data) := by
  have h := blocksLoop_append m data md5InitState
  simp [md5Update, ctxOf, h]

theorem md5ReadLoopF_ctxOf :
    ∀ (fuel : Nat) (m bytes : List Nat), bytes.length ≤ fuel →
      md5ReadLoopF fuel (ctxOf m) bytes = ctxOf (m ++ bytes) := by
  intro fuel
  induction fuel with
  | zero =>
      intro m bytes h
      have hb : bytes = [] := List.eq_nil_of_length_eq_zero (Nat.le_zero.mp h)
      subst hb
      simp [md5ReadLoopF]
  | succ n ih =>
      intro m bytes h
      cases bytes with
      | nil => simp [md5ReadLoopF]
      | cons b bs =>
          simp only [md5ReadLoopF, List.isEmpty_cons, if_neg Bool.false_ne_true]
          rw [md5Update_ctxOf]
          rw [ih (m ++ (b :: bs).take 16384) ((b :: bs).drop 16384)
            (by simp only [List.length_drop]; simp at h ⊢; omega)]
          rw [List.append_assoc, List.take_append_drop]

theorem md5ReadLoop_ctxOf (m bytes : List Nat) :
    md5ReadLoop (ctxOf m) bytes = ctxOf (m ++ bytes) :=
  md5ReadLoopF_ctxOf bytes.length m bytes le_rfl

theorem md5hexdigest_ctxOf (m : List Nat) :
    md5hexdigest (ctxOf m) = md5hex m := by
  unfold md5hexdigest md5Final ctxOf md5hex md5Bytes
  rw [blocksLoop_append m (md5Padding m.length) md5InitState]

/-- The incremental computation of `getfilehash` — seed with the path,
absorb the content in 16384-byte chunks, hexdigest — equals the one-shot
MD5 of the UTF-8 path followed by the content bytes. -/
theorem getfilehashBytes_eq (filename : String) (content : List Nat) :
    getfilehashBytes filename content =
      md5hex (utf8Bytes filename ++ content) := by
  unfold getfilehashBytes
  rw [md5New_eq, md5ReadLoop_ctxOf, md5hexdigest_ctxOf]

theorem length_encodeLE (n k : Nat) : (encodeLE n k).length = k := by
  induction k generalizing n with
  | zero => rfl
  | succ m ih => simp [encodeLE, ih]

theorem length_stateBytes (st : MD5State) : (stateBytes st).length = 16 := by
  simp [stateBytes, length_encodeLE]

theorem length_bytesToHex (bs : List Nat) :
    (bytesToHex bs).length = 2 * bs.length := by
  unfold bytesToHex
  rw [String.length_mk]
  induction bs with
  | nil => rfl
  | cons b rest ih =>
      simp only [List.map_cons, List.flatten_cons, List.length_append, ih,
        List.length_cons]
      simp [byteHex]
      omega

theorem md5hex_length (m : List Nat) : (md5hex m).length = 32 := by
  unfold md5hex md5Bytes
  rw [length_bytesToHex, length_stateBytes]

theorem hexDigitChars_getD_mem (i : Nat) (h : i < 16) :
    hexDigitChars.getD i '0' ∈ hexDigitChars := by
  interval_cases i <;> decide

theorem byteHex_mem (b : Nat) : ∀ ch ∈ byteHex b, ch ∈ hexDigitChars := by
  intro ch hch
  simp only [byteHex, List.mem_cons, List.not_mem_nil, or_false] at hch
  rcases hch with h | h
  · exact h ▸ hexDigitChars_getD_mem _ (Nat.mod_lt _ (by norm_num))
  · exact h ▸ hexDigitChars_getD_mem _ (Nat.mod_lt _ (by norm_num))

theorem md5hex_chars (m : List Nat) :
    ∀ ch ∈ (md5hex m).data, ch ∈ hexDigitChars := by
  intro ch hch
  have hch2 : ch ∈ ((md5Bytes m).map byteHex).flatten := hch
  obtain ⟨l, hl, hchl⟩ := List.mem_flatten.mp hch2
  obtain ⟨b, _, rfl⟩ := List.mem_map.mp hl
  exact byteHex_mem b ch hchl

set_option maxRecDepth 1000000 in
/-- C7: `getfilehash` on a readable file returns the hex-encoded 128-bit
digest (32 hex characters) of an MD5 seeded with the file's UTF-8 path
string before its content bytes; on an unreadable file it returns None
rather than raising.  The path seeding makes files with identical content
but different paths hash differently, exhibited on a concrete pair of
same-content files. -/
theorem getfilehash_contract :
    (∀ (fs : String → Option (List Nat)) (path : String),
      fs path = none → getfilehash fs path = none) ∧
    (∀ (fs : String → Option (List Nat)) (path : String) (content : List Nat),
      fs path = some content →
      getfilehash fs path = some (md5hex (utf8Bytes path ++ content)) ∧
        (md5hex (utf8Bytes path ++ content)).length = 32 ∧
        ∀ ch ∈ (md5hex (utf8Bytes path ++ content)).data,
          ch ∈ hexDigitChars) ∧
    getfilehash (fun _ => some [104, 105]) "a.txt" ≠
      getfilehash (fun _ => some [104, 105]) "b.txt" := by
  refine ⟨?_, ?_, ?_⟩
  · intro fs path h
    simp [getfilehash, h]
  · intro fs path content h
    refine ⟨by simp [getfilehash, h, getfilehashBytes_eq], md5hex_length _,
      md5hex_chars _⟩
  · decide

/-- Witness for C7: an unreadable file yields None; a concrete readable
file yields the seeded digest with 32 hex characters. -/
theorem getfilehash_contract_witness :
    getfilehash (fun _ => none) "a.txt" = none ∧
      getfilehash (fun _ => some [104, 105]) "a.txt" =
        some (md5hex (utf8Bytes "a.txt" ++ [104, 105])) ∧
      (md5hex (utf8Bytes "a.txt" ++ [104, 105])).length = 32 :=
  ⟨getfilehash_contract.1 (fun _ => none) "a.txt" rfl,
   (getfilehash_contract.2.1 (fun _ => some [104, 105]) "a.txt" [104, 105]
     rfl).1,
   (getfilehash_contract.2.1 (fun _ => some [104, 105]) "a.txt" [104, 105]
     rfl).2.1⟩

/-! ## Claim C10 -/

theorem nodupB_iff (l : List String) : nodupB l = true ↔ l.Nodup := by
  induction l with
  | nil => simp [nodupB]
  | cons x xs ih =>
      simp [nodupB, List.nodup_cons, ih]

theorem filterExtensions_sublist (ext : Option (List String))
    (l : List String) : (filterExtensions ext l).Sublist l := by
  cases ext with
  | none => exact List.Sublist.refl l
  | some exts =>
      by_cases h : exts.isEmpty
      · simp only [filterExtensions, if_pos h]
        exact List.Sublist.refl l
      · simp only [filterExtensions, if_neg h]
        exact List.filter_sublist l

theorem localfilesOf_nodup (ext : Option (List String)) (l : List String)
    (h : l.Nodup) : (localfilesOf ext l).Nodup :=
  ((List.perm_insertionSort _ _).nodup_iff).mpr
    ((filterExtensions_sublist ext l).nodup h)

/-- The store/skip decision `syncdir` makes for `leaf` against snapshot
`X` (false also covers a leaf with no local file, which the loop never
reaches). -/
def storeQ (today : Int) (submit : Nat) (files : List (String × LFile))
    (ldir : String) (X : RemoteDirContents) (leaf : String) : Bool :=
  match lookupA files leaf with
  | none => false
  | some lf =>
      decide (should_store X submit today lf.mtime (Int.ofNat lf.content.length)
        (some (getfilehashBytes (pathJoin ldir leaf) lf.content)) leaf =
          some true)

theorem storeQ_congr (today : Int) (submit : Nat)
    (files : List (String × LFile)) (ldir : String)
    (X₁ X₂ : RemoteDirContents) (leaf : String)
    (h : lookupA X₁ leaf = lookupA X₂ leaf) :
    storeQ today submit files ldir X₁ leaf =
      storeQ today submit files ldir X₂ leaf := by
  cases hlf : lookupA files leaf with
  | none => simp only [storeQ, hlf]
  | some lf =>
      simp only [storeQ, hlf]
      rw [should_store_congr X₁ X₂ submit today lf.mtime
        (Int.ofNat lf.content.length)
        (some (getfilehashBytes (pathJoin ldir leaf) lf.content)) leaf h]

/-- The uploads的 list produced by the per-file loop is the
decision-filtered subsequence of the processed leaf order, with
decisions taken against the starting snapshot. -/
theorem processFiles_ups (today : Int) (submit : Nat)
    (files : List (String × LFile)) (ldir : String) :
    ∀ (leaves : List String) (X : RemoteDirContents)
      (r : RemoteDirContents × List String),
      leaves.Nodup →
      processFiles today submit files ldir leaves X = some r →
      r.2 = (leaves.filter (storeQ today submit files ldir X)).map
        (fun leaf => pathJoin ldir leaf) := by
  intro leaves
  induction leaves with
  | nil =>
      intro X r _ h
      simp only [processFiles] at h
      cases h
      rfl
  | cons leaf rest ih =>
      intro X r hnd h
      simp only [processFiles] at h
      cases hlf : lookupA files leaf with
      | none =>
          simp only [hlf] at h
          rw [ih X r (List.Nodup.of_cons hnd) h]
          simp [List.filter_cons, storeQ, hlf]
      | some lf =>
          simp only [hlf] at h
          cases hd : should_store X submit today lf.mtime
              (Int.ofNat lf.content.length)
              (some (getfilehashBytes (pathJoin ldir leaf) lf.content))
              leaf with
          | none =>
              simp only [hd] at h
              exact Option.noConfusion h
          | some b =>
              simp only [hd] at h
              cases b with
              | true =>
                  cases hrec : processFiles today submit files ldir rest
                      (set_file X leaf
                        (SizeField.val (SVal.int (Int.ofNat lf.content.length)))
                        (HashField.val (optToHVal
                          (some (getfilehashBytes (pathJoin ldir leaf)
                            lf.content))))) with
                  | none =>
                      simp only [hrec] at h
                      exact Option.noConfusion h
                  | some q =>
                      simp only [hrec] at h
                      cases h
                      have hq := ih _ q (List.Nodup.of_cons hnd) hrec
                      have hfc : ∀ x ∈ rest,
                          storeQ today submit files ldir
                            (set_file X leaf
                              (SizeField.val (SVal.int (Int.ofNat lf.content.length)))
                              (HashField.val (optToHVal
                                (some (getfilehashBytes (pathJoin ldir leaf)
                                  lf.content))))) x =
                          storeQ today submit files ldir X x := by
                        intro x hx
                        apply storeQ_congr
                        unfold set_file
                        rw [lookupA_setA]
                        exact if_neg (fun hxl : x = leaf =>
                          (List.nodup_cons.mp hnd).1 (hxl ▸ hx))
                      rw [List.filter_cons]
                      have hsq : storeQ today submit files ldir X leaf = true := by
                        simp only [storeQ, hlf, decide_eq_true_eq]
                        exact hd
                      rw [hsq]
                      simp only [List.map_cons]
                      rw [hq, List.filter_congr hfc]
                      simp
              | false =>
                  rw [ih X r (List.Nodup.of_cons hnd) h]
                  have hsq : storeQ today submit files ldir X leaf = false := by
                    simp only [storeQ, hlf, decide_eq_false_iff_not]
                    rw [hd]
                    simp
                  simp [List.filter_cons, hsq]

/-- C10: per directory, the Publisher's decisions and uploads run over
the file names in ascending lexicographic order, independent of the
enumeration order `os.listdir` happens to produce: (i) the processed
list is invariant under permutation of the listing, (ii) it is sorted
ascending, and (iii) the uploads a `syncdir` step performs for its own
directory are the decision-filtered prefix of exactly that sorted list
(followed by the recursive subdirectory uploads). -/
theorem publisher_sorted_order :
    (∀ (ext : Option (List String)) (l₁ l₂ : List String),
      l₁.Perm l₂ → localfilesOf ext l₁ = localfilesOf ext l₂) ∧
    (∀ (ext : Option (List String)) (l : List String),
      List.Sorted (fun a b : String => a ≤ b) (localfilesOf ext l)) ∧
    (∀ (today : Int) (remote : List String → Conn)
        (ext : Option (List String)) (submit : Nat)
        (files : List (String × LFile)) (subdirs : LForest)
        (ldir rdir : String) (pwd : List String)
        (cache : CacheMap (List String)),
      nodupB (files.map Prod.fst) = true →
      ∀ hs : (syncdirM today remote ext submit (LTree.node files subdirs)
        ldir rdir pwd cache).isSome = true,
      ∃ subUps,
        ((syncdirM today remote ext submit (LTree.node files subdirs)
          ldir rdir pwd cache).get hs).2 =
        ((localfilesOf ext (files.map Prod.fst)).filter
          (storeQ today submit files ldir
            (cached_get_contents cache
              (remote (effKey pwd rdir))
              (dirFS ldir files) ldir (effKey pwd rdir)).1)).map
          (fun leaf => pathJoin ldir leaf) ++ subUps) := by
  have sortPart : ∀ (ext : Option (List String)) (l : List String),
      List.Sorted (fun a b : String => a ≤ b) (localfilesOf ext l) :=
    fun ext l => List.sorted_insertionSort _ _
  refine ⟨?_, sortPart, ?_⟩
  · intro ext l₁ l₂ hperm
    have hp : (filterExtensions ext l₁).Perm (filterExtensions ext l₂) := by
      cases ext with
      | none => exact hperm
      | some exts =>
          by_cases h : exts.isEmpty
          · simp only [filterExtensions, if_pos h]; exact hperm
          · simp only [filterExtensions, if_neg h]; exact hperm.filter _
    refine List.eq_of_perm_of_sorted ?_ (sortPart ext l₁) (sortPart ext l₂)
    exact ((List.perm_insertionSort _ _).trans hp).trans
      (List.perm_insertionSort _ _).symm
  · intro today remote ext submit files subdirs ldir rdir pwd cache hnd hs
    obtain ⟨r, hr⟩ := Option.isSome_iff_exists.mp hs
    have hget : (syncdirM today remote ext submit (LTree.node files subdirs)
        ldir rdir pwd cache).get hs = r := by
      simp [hr]
    rw [hget]
    have hr2 := hr
    simp only [syncdirM] at hr2
    cases hpf : processFiles today submit files ldir
        (localfilesOf ext (files.map Prod.fst))
        (cached_get_contents cache (remote (effKey pwd rdir))
          (dirFS ldir files) ldir (effKey pwd rdir)).1 with
    | none =>
        simp only [hpf] at hr2
        exact Option.noConfusion hr2
    | some q =>
        obtain ⟨X2, ups⟩ := q
        simp only [hpf] at hr2
        cases hsf : syncForest today remote ext submit subdirs ldir
            (effKey pwd rdir)
            (set_dir_contents
              (cached_get_contents cache (remote (effKey pwd rdir))
                (dirFS ldir files) ldir (effKey pwd rdir)).2.1
              (effKey pwd rdir) X2) with
        | none =>
            simp only [hsf] at hr2
            exact Option.noConfusion hr2
        | some q2 =>
            simp only [hsf] at hr2
            cases hr2
            refine ⟨q2.2, ?_⟩
            have hups : ups = ((localfilesOf ext (files.map Prod.fst)).filter
                (storeQ today submit files ldir
                  (cached_get_contents cache (remote (effKey pwd rdir))
                    (dirFS ldir files) ldir (effKey pwd rdir)).1)).map
                (fun leaf => pathJoin ldir leaf) :=
              processFiles_ups today submit files ldir _ _ (X2, ups)
                (localfilesOf_nodup ext _ ((nodupB_iff _).mp hnd)) hpf
            simp only
            rw [hups]

/-- Witness for C10 at concrete inputs: permutation invariance of the
pipeline, its sortedness, and the upload shape of a one-file directory
sync. -/
theorem publisher_sorted_order_witness :
    localfilesOf none ["b", "a"] = localfilesOf none ["a", "b"] ∧
      List.Sorted (fun a b : String => a ≤ b) (localfilesOf none ["b", "a"]) ∧
      ∃ subUps,
        ((syncdirM 0 (fun _ => ⟨[], fun _ => none⟩) none 0
          (LTree.node [("f", ⟨[], 0⟩)] LForest.nil) "d" "d" []
          (fun _ => some [])).get (by decide)).2 =
        ((localfilesOf none ["f"]).filter
          (storeQ 0 0 [("f", ⟨[], 0⟩)] "d"
            (cached_get_contents (fun _ => some [])
              ((fun _ => (⟨[], fun _ => none⟩ : Conn)) (effKey [] "d"))
              (dirFS "d" [("f", ⟨[], 0⟩)]) "d" (effKey [] "d")).1)).map
          (fun leaf => pathJoin "d" leaf) ++ subUps :=
  ⟨publisher_sorted_order.1 none ["b", "a"] ["a", "b"] (by decide),
   publisher_sorted_order.2.1 none ["b", "a"],
   publisher_sorted_order.2.2 0 (fun _ => ⟨[], fun _ => none⟩) none 0
     [("f", ⟨[], 0⟩)] LForest.nil "d" "d" [] (fun _ => some [])
     (by decide) (by decide)⟩

/-! ## Claim C6 — idempotence lemmas -/

theorem set_dir_contents_self (cache : CacheMap (List String))
    (k : List String) (X : RemoteDirContents) (h : cache k = some X) :
    set_dir_contents cache k X = cache := by
  funext q
  unfold set_dir_contents
  by_cases hq : q = k
  · subst hq
    rw [if_pos rfl, h]
  · rw [if_neg hq]

/-- The per-file loop touches only the processed leaves' entries. -/
theorem processFiles_untouched (today : Int) (submit : Nat)
    (files : List (String × LFile)) (ldir : String) :
    ∀ (leaves : List String) (X : RemoteDirContents)
      (r : RemoteDirContents × List String),
      processFiles today submit files ldir leaves X = some r →
      ∀ k, k ∉ leaves → lookupA r.1 k = lookupA X k := by
  intro leaves
  induction leaves with
  | nil =>
      intro X r h k _
      simp only [processFiles] at h
      cases h
      rfl
  | cons leaf rest ih =>
      intro X r h k hk
      have hk1 : k ≠ leaf := fun he => hk (he ▸ List.mem_cons_self _ _)
      have hk2 : k ∉ rest := fun he => hk (List.mem_cons_of_mem _ he)
      simp only [processFiles] at h
      cases hlf : lookupA files leaf with
      | none =>
          simp only [hlf] at h
          exact ih X r h k hk2
      | some lf =>
          simp only [hlf] at h
          cases hd : should_store X submit today lf.mtime
              (Int.ofNat lf.content.length)
              (some (getfilehashBytes (pathJoin ldir leaf) lf.content))
              leaf with
          | none => simp only [hd] at h; exact Option.noConfusion h
          | some b =>
              simp only [hd] at h
              cases b with
              | true =>
                  cases hrec : processFiles today submit files ldir rest
                      (set_file X leaf
                        (SizeField.val (SVal.int (Int.ofNat lf.content.length)))
                        (HashField.val (optToHVal
                          (some (getfilehashBytes (pathJoin ldir leaf)
                            lf.content))))) with
                  | none => simp only [hrec] at h; exact Option.noConfusion h
                  | some q =>
                      simp only [hrec] at h
                      cases h
                      rw [ih _ q hrec k hk2]
                      unfold set_file
                      rw [lookupA_setA]
                      exact if_neg hk1
              | false => exact ih X r h k hk2

/-- After an upload wrote back the local size and digest, the decider
skips that leaf (for a policy without `AllFiles` and without
`ChangedToday`). -/
theorem should_store_after_upload (X : RemoteDirContents) (submit : Nat)
    (today mtime : Int) (n : Nat) (d : String) (leaf : String)
    (hAll : submit &&& Submit.AllFiles ≠ Submit.AllFiles)
    (hCT : submit &&& Submit.ChangedToday = 0)
    (h : lookupA X leaf = some ⟨SizeField.val (SVal.int (Int.ofNat n)),
      HashField.val (HVal.str d)⟩) :
    should_store X submit today mtime (Int.ofNat n) (some d) leaf =
      some false := by
  have hct2 : ¬(submit &&& Submit.ChangedToday ≠ 0 ∧ today ≤ mtime) := by
    rw [hCT]; simp
  have hsz : get_file_size X leaf = SVal.int (Int.ofNat n) := by
    simp [get_file_size, h]
  have hh : get_file_hash X leaf = HVal.str d := by
    simp [get_file_hash, h]
  by_cases hmc : submit &&& Submit.MissingOrChanged ≠ 0
  · simp [should_store, hAll, hct2, hmc, hsz, hh, optToHVal]
  · simp [should_store, hAll, hct2, hmc]

/-- Re-running the per-file loop on its own result performs no uploads
and leaves the snapshot unchanged. -/
theorem processFiles_fix (today : Int) (submit : Nat)
    (files : List (String × LFile)) (ldir : String)
    (hAll : submit &&& Submit.AllFiles ≠ Submit.AllFiles)
    (hCT : submit &&& Submit.ChangedToday = 0) :
    ∀ (leaves : List String) (X : RemoteDirContents)
      (r : RemoteDirContents × List String),
      leaves.Nodup →
      processFiles today submit files ldir leaves X = some r →
      processFiles today submit files ldir leaves r.1 = some (r.1, []) := by
  intro leaves
  induction leaves with
  | nil =>
      intro X r _ h
      simp only [processFiles] at h
      cases h
      rfl
  | cons leaf rest ih =>
      intro X r hnd h
      have hleaf : leaf ∉ rest := (List.nodup_cons.mp hnd).1
      simp only [processFiles] at h ⊢
      cases hlf : lookupA files leaf with
      | none =>
          simp only [hlf] at h ⊢
          exact ih X r (List.Nodup.of_cons hnd) h
      | some lf =>
          simp only [hlf] at h ⊢
          cases hd : should_store X submit today lf.mtime
              (Int.ofNat lf.content.length)
              (some (getfilehashBytes (pathJoin ldir leaf) lf.content))
              leaf with
          | none => simp only [hd] at h; exact Option.noConfusion h
          | some b =>
              simp only [hd] at h
              cases b with
              | true =>
                  cases hrec : processFiles today submit files ldir rest
                      (set_file X leaf
                        (SizeField.val (SVal.int (Int.ofNat lf.content.length)))
                        (HashField.val (optToHVal
                          (some (getfilehashBytes (pathJoin ldir leaf)
                            lf.content))))) with
                  | none => simp only [hrec] at h; exact Option.noConfusion h
                  | some q =>
                      simp only [hrec] at h
                      cases h
                      have hlk : lookupA q.1 leaf =
                          some ⟨SizeField.val (SVal.int (Int.ofNat lf.content.length)),
                            HashField.val (HVal.str (getfilehashBytes
                              (pathJoin ldir leaf) lf.content))⟩ := by
                        rw [processFiles_untouched today submit files ldir rest _
                          q hrec leaf hleaf]
                        unfold set_file
                        rw [lookupA_setA]
                        exact if_pos rfl
                      have hd2 := should_store_after_upload q.1 submit today
                        lf.mtime lf.content.length
                        (getfilehashBytes (pathJoin ldir leaf) lf.content) leaf
                        hAll hCT hlk
                      simp only [hd2]
                      exact ih _ q (List.Nodup.of_cons hnd) hrec
              | false =>
                  have hlk : lookupA r.1 leaf = lookupA X leaf :=
                    processFiles_untouched today submit files ldir rest X r h
                      leaf hleaf
                  have hd2 : should_store r.1 submit today lf.mtime
                      (Int.ofNat lf.content.length)
                      (some (getfilehashBytes (pathJoin ldir leaf) lf.content))
                      leaf = some false := by
                    rw [should_store_congr r.1 X submit today lf.mtime
                      (Int.ofNat lf.content.length)
                      (some (getfilehashBytes (pathJoin ldir leaf) lf.content))
                      leaf hlk]
                    exact hd
                  simp only [hd2]
                  exact ih X r (List.Nodup.of_cons hnd) h

theorem child_prefix_parent {pwd k : List String} {d : String}
    (h : (pwd ++ [d]) <+: k) : pwd <+: k :=
  (List.prefix_append pwd [d]).trans h

theorem child_key_ne {pwd k : List String} {d : String}
    (h : (pwd ++ [d]) <+: k) : k ≠ pwd := by
  intro he
  have hlen := h.length_le
  subst he
  simp only [List.length_append, List.length_singleton] at hlen
  omega

theorem sibling_prefix_eq {pwd k : List String} {d₁ d₂ : String}
    (h₁ : (pwd ++ [d₁]) <+: k) (h₂ : (pwd ++ [d₂]) <+: k) : d₁ = d₂ := by
  have hlen : (pwd ++ [d₁]).length = (pwd ++ [d₂]).length := by simp
  rcases List.prefix_or_prefix_of_prefix h₁ h₂ with h | h
  · have he := h.eq_of_length hlen
    have := List.append_cancel_left he
    simpa using this
  · have he := h.eq_of_length hlen.symm
    have := List.append_cancel_left he
    simpa using this.symm

mutual

/-- Frame and fixpoint property of one `syncdir` call: it modifies the
cache only at keys inside its working-directory region, and rerunning it
from any cache that agrees with its result on that region uploads
nothing and leaves the cache as it was. -/
theorem syncdirM_frame (today : Int) (remote : List String → Conn)
    (ext : Option (List String)) (submit : Nat)
    (hAll : submit &&& Submit.AllFiles ≠ Submit.AllFiles)
    (hCT : submit &&& Submit.ChangedToday = 0) :
    ∀ (tree : LTree) (ldir rdir : String) (pwd : List String)
      (c c' : CacheMap (List String)) (ups : List String),
      wfTree tree = true →
      syncdirM today remote ext submit tree ldir rdir pwd c =
        some (c', ups) →
      ((∀ k, ¬(effKey pwd rdir <+: k) → c' k = c k) ∧
        (∀ c₂ : CacheMap (List String),
          (∀ k, effKey pwd rdir <+: k → c₂ k = c' k) →
          syncdirM today remote ext submit tree ldir rdir pwd c₂ =
            some (c₂, [])))
  | LTree.node files subdirs, ldir, rdir, pwd, c, c', ups, hw, hrun => by
      have hw2 := hw
      simp only [wfTree, Bool.and_eq_true] at hw2
      obtain ⟨⟨hndf, hndn⟩, hwf⟩ := hw2
      simp only [syncdirM] at hrun
      cases hpf : processFiles today submit files ldir
          (localfilesOf ext (files.map Prod.fst))
          (cached_get_contents c (remote (effKey pwd rdir)) (dirFS ldir files)
            ldir (effKey pwd rdir)).1 with
      | none => simp only [hpf] at hrun; exact Option.noConfusion hrun
      | some q =>
          obtain ⟨X2, ups1⟩ := q
          simp only [hpf] at hrun
          cases hsf : syncForest today remote ext submit subdirs ldir
              (effKey pwd rdir)
              (set_dir_contents
                (cached_get_contents c (remote (effKey pwd rdir))
                  (dirFS ldir files) ldir (effKey pwd rdir)).2.1
                (effKey pwd rdir) X2) with
          | none => simp only [hsf] at hrun; exact Option.noConfusion hrun
          | some q2 =>
              obtain ⟨c3, ups2⟩ := q2
              simp only [hsf, Option.some.injEq, Prod.mk.injEq] at hrun
              obtain ⟨rfl, rfl⟩ := hrun
              have hcacheagree : ∀ k, k ≠ effKey pwd rdir →
                  (cached_get_contents c (remote (effKey pwd rdir))
                    (dirFS ldir files) ldir (effKey pwd rdir)).2.1 k = c k := by
                intro k hk
                cases hc : c (effKey pwd rdir) with
                | some X0 => simp [cached_get_contents, hc]
                | none => simp [cached_get_contents, hc, set_dir_contents, hk]
              have hcache2 : (set_dir_contents
                  (cached_get_contents c (remote (effKey pwd rdir))
                    (dirFS ldir files) ldir (effKey pwd rdir)).2.1
                  (effKey pwd rdir) X2) (effKey pwd rdir) = some X2 := by
                simp [set_dir_contents]
              have hcache2off : ∀ k, k ≠ effKey pwd rdir →
                  (set_dir_contents
                    (cached_get_contents c (remote (effKey pwd rdir))
                      (dirFS ldir files) ldir (effKey pwd rdir)).2.1
                    (effKey pwd rdir) X2) k = c k := by
                intro k hk
                unfold set_dir_contents
                rw [if_neg hk]
                exact hcacheagree k hk
              obtain ⟨FA, FB⟩ := syncForest_frame today remote ext submit
                hAll hCT subdirs ldir (effKey pwd rdir) _ c3 ups2 hwf hndn hsf
              refine ⟨?_, ?_⟩
              · intro k hk
                rw [FA k (fun d _ hpre => hk (child_prefix_parent hpre))]
                exact hcache2off k
                  (fun he => hk (he ▸ List.prefix_refl _))
              · intro c₂ hagree
                have hc2pwdN : c₂ (effKey pwd rdir) = some X2 := by
                  rw [hagree _ (List.prefix_refl _)]
                  rw [FA (effKey pwd rdir)
                    (fun d _ hpre => absurd rfl (child_key_ne hpre))]
                  exact hcache2
                have hcg2 : cached_get_contents c₂ (remote (effKey pwd rdir))
                    (dirFS ldir files) ldir (effKey pwd rdir) =
                    (X2, c₂, []) := by
                  simp [cached_get_contents, hc2pwdN]
                have hpf2 : processFiles today submit files ldir
                    (localfilesOf ext (files.map Prod.fst)) X2 =
                    some (X2, []) :=
                  processFiles_fix today submit files ldir hAll hCT
                    (localfilesOf ext (files.map Prod.fst)) _ (X2, ups1)
                    (localfilesOf_nodup ext _ ((nodupB_iff _).mp hndf)) hpf
                have hsdc : set_dir_contents c₂ (effKey pwd rdir) X2 = c₂ :=
                  set_dir_contents_self c₂ _ X2 hc2pwdN
                have hfb := FB c₂ hagree
                simp only [syncdirM, hcg2, hpf2, hsdc, hfb,
                  List.nil_append]

theorem syncForest_frame (today : Int) (remote : List String → Conn)
    (ext : Option (List String)) (submit : Nat)
    (hAll : submit &&& Submit.AllFiles ≠ Submit.AllFiles)
    (hCT : submit &&& Submit.ChangedToday = 0) :
    ∀ (subdirs : LForest) (ldir : String) (pwd : List String)
      (c c' : CacheMap (List String)) (ups : List String),
      wfForest subdirs = true →
      nodupB (forestNames subdirs) = true →
      syncForest today remote ext submit subdirs ldir pwd c =
        some (c', ups) →
      ((∀ k, (∀ d ∈ forestNames subdirs, ¬((pwd ++ [d]) <+: k)) →
          c' k = c k) ∧
        (∀ c₂ : CacheMap (List String),
          (∀ k, pwd <+: k → c₂ k = c' k) →
          syncForest today remote ext submit subdirs ldir pwd c₂ =
            some (c₂, [])))
  | LForest.nil, ldir, pwd, c, c', ups, _, _, hrun => by
      simp only [syncForest, Option.some.injEq, Prod.mk.injEq] at hrun
      obtain ⟨rfl, rfl⟩ := hrun
      exact ⟨fun k _ => rfl, fun c₂ _ => by simp [syncForest]⟩
  | LForest.cons d sub rest, ldir, pwd, c, c', ups, hwf, hnd, hrun => by
      simp only [wfForest, Bool.and_eq_true, decide_eq_true_eq] at hwf
      obtain ⟨⟨hdne, hwsub⟩, hwrest⟩ := hwf
      simp only [forestNames, nodupB, Bool.and_eq_true, Bool.not_eq_true']
        at hnd
      obtain ⟨hcont, hndrest⟩ := hnd
      have hdnm : d ∉ forestNames rest := by
        intro hm
        have h2 : (forestNames rest).contains d = true :=
          List.elem_eq_true_of_mem hm
        rw [h2] at hcont
        exact Bool.noConfusion hcont
      simp only [syncForest] at hrun
      by_cases hhid : d.data.head? = some '.'
      · rw [if_pos hhid] at hrun
        obtain ⟨RA, RB⟩ := syncForest_frame today remote ext submit hAll hCT
          rest ldir pwd c c' ups hwrest hndrest hrun
        refine ⟨?_, ?_⟩
        · intro k hk
          exact RA k (fun d' hd' =>
            hk d' (by simp only [forestNames, List.mem_cons]; exact Or.inr hd'))
        · intro c₂ hagree
          simp only [syncForest]
          rw [if_pos hhid]
          exact RB c₂ hagree
      · rw [if_neg hhid] at hrun
        cases hd1 : syncdirM today remote ext submit sub (pathJoin ldir d) d
            pwd c with
        | none => simp only [hd1] at hrun; exact Option.noConfusion hrun
        | some z =>
            obtain ⟨z1, u1⟩ := z
            simp only [hd1] at hrun
            cases hrest : syncForest today remote ext submit rest ldir pwd
                z1 with
            | none => simp only [hrest] at hrun; exact Option.noConfusion hrun
            | some w =>
                obtain ⟨c3, u2⟩ := w
                simp only [hrest, Option.some.injEq, Prod.mk.injEq] at hrun
                obtain ⟨rfl, rfl⟩ := hrun
                obtain ⟨CA, CB⟩ := syncdirM_frame today remote ext submit
                  hAll hCT sub (pathJoin ldir d) d pwd c z1 u1 hwsub hd1
                obtain ⟨RA, RB⟩ := syncForest_frame today remote ext submit
                  hAll hCT rest ldir pwd z1 c3 u2 hwrest hndrest hrest
                have heff : effKey pwd d = pwd ++ [d] := if_neg hdne
                refine ⟨?_, ?_⟩
                · intro k hk
                  rw [RA k (fun d' hd' =>
                    hk d' (by
                      simp only [forestNames, List.mem_cons]
                      exact Or.inr hd'))]
                  refine CA k ?_
                  rw [heff]
                  exact hk d (by simp [forestNames])
                · intro c₂ hagree
                  have hchild : ∀ k, effKey pwd d <+: k → c₂ k = z1 k := by
                    intro k hpre
                    rw [heff] at hpre
                    rw [hagree k (child_prefix_parent hpre)]
                    refine RA k ?_
                    intro d' hd' hpre'
                    have : d ∈ forestNames rest := by
                      rw [sibling_prefix_eq hpre hpre']
                      exact hd'
                    exact hdnm this
                  have hc2run := CB c₂ hchild
                  have hrest2 := RB c₂ hagree
                  simp only [syncForest]
                  rw [if_neg hhid]
                  simp only [hc2run, hrest2, List.nil_append]

end

/-- Counterexample to C6 as stated: with the `AllFiles` policy (a policy
the claim does not exclude), a second `syncdir` run over an unchanged
local tree and the populated cache from the first run uploads the file
again — the second run's upload list is `["d/f"]`, not `[]`.  (The same
happens with `ChangedToday` and a file modified after the cutoff.) -/
theorem syncdir_idempotence_fails_for_allfiles :
    ((syncdirM 0 (fun _ => ⟨[], fun _ => none⟩) none Submit.AllFiles
        (LTree.node [("f", ⟨[], 0⟩)] LForest.nil) "d" "d" []
        (fun _ => none)).bind
      (fun r =>
        (syncdirM 0 (fun _ => ⟨[], fun _ => none⟩) none Submit.AllFiles
          (LTree.node [("f", ⟨[], 0⟩)] LForest.nil) "d" "d" [] r.1).map
          (fun q => q.2))) = some ["d/f"] ∧
      some ["d/f"] ≠ some ([] : List String) := by
  exact ⟨by decide, by decide⟩

/-- C6 (amended): for a submit policy that includes neither the
`AllFiles` short-circuit nor the `ChangedToday` flag (e.g. plain
`MissingOrChanged`), running `syncdir` a second time over the same local
tree, starting from the cache the first run produced, performs zero
uploads (and leaves the cache untouched). -/
theorem syncdir_second_run_no_uploads (today : Int)
    (remote : List String → Conn) (ext : Option (List String)) (submit : Nat)
    (tree : LTree) (ldir rdir : String) (pwd : List String)
    (c : CacheMap (List String))
    (hw : wfTree tree = true)
    (hAll : submit &&& Submit.AllFiles ≠ Submit.AllFiles)
    (hCT : submit &&& Submit.ChangedToday = 0)
    (hs : (syncdirM today remote ext submit tree ldir rdir pwd c).isSome =
      true) :
    syncdirM today remote ext submit tree ldir rdir pwd
        ((syncdirM today remote ext submit tree ldir rdir pwd c).get hs).1 =
      some (((syncdirM today remote ext submit tree ldir rdir pwd
        c).get hs).1, []) := by
  obtain ⟨r, hr⟩ := Option.isSome_iff_exists.mp hs
  obtain ⟨c', ups⟩ := r
  have hget : (syncdirM today remote ext submit tree ldir rdir pwd c).get hs =
      (c', ups) := by simp [hr]
  rw [hget]
  exact (syncdirM_frame today remote ext submit hAll hCT tree ldir rdir pwd
    c c' ups hw hr).2 c' (fun k _ => rfl)

/-- Witness for the amended C6 at a concrete one-file tree under the
`MissingOrChanged` policy: the first run populates and uploads, the
second run from the resulting cache uploads nothing. -/
theorem syncdir_second_run_no_uploads_witness :
    syncdirM 0 (fun _ => ⟨[], fun _ => none⟩) none Submit.MissingOrChanged
        (LTree.node [("f", ⟨[], 0⟩)] LForest.nil) "d" "d" []
        ((( syncdirM 0 (fun _ => ⟨[], fun _ => none⟩) none
          Submit.MissingOrChanged (LTree.node [("f", ⟨[], 0⟩)] LForest.nil)
          "d" "d" [] (fun _ => none)).get (by decide)).1) =
      some ((((syncdirM 0 (fun _ => ⟨[], fun _ => none⟩) none
        Submit.MissingOrChanged (LTree.node [("f", ⟨[], 0⟩)] LForest.nil)
        "d" "d" [] (fun _ => none)).get (by decide)).1), []) :=
  syncdir_second_run_no_uploads 0 (fun _ => ⟨[], fun _ => none⟩) none
    Submit.MissingOrChanged (LTree.node [("f", ⟨[], 0⟩)] LForest.nil)
    "d" "d" [] (fun _ => none) (by decide) (by decide) (by decide) (by decide)

end SitePub
